import Mathlib

/-!
Shallow embedding of the heuristic keyword-extraction and resume-scoring
engine (`textProcessing`) of the candidate-profiling repository.

Modelling conventions:
* JavaScript numbers are modelled as rationals (`ℚ`); `Math.round` is the
  round-half-up `round : ℚ → ℤ`, and `Number(x.toFixed(3))` is rounding to
  three decimal places over `ℚ`.
* JavaScript strings are Lean `String`s; the regular expressions of the
  source are implemented as explicit character scans over `List Char`.
* JavaScript `Map`/`Set` (insertion-ordered) are association lists / lists
  without duplicates, with `set` replacing in place and appending fresh keys.
* The index loops of `collectPhrases` and `buildNgramCounts` are translated
  to structural recursion over list suffixes (index `i` ↦ suffix `drop i`).
-/

namespace CandidateProfiling

/-! ### Character classes and low-level string helpers -/

/-- ASCII lower-casing, the effect of `toLowerCase()` on the ASCII inputs
the engine works with. -/
def lowerChar (c : Char) : Char :=
  if 65 ≤ c.toNat ∧ c.toNat ≤ 90 then Char.ofNat (c.toNat + 32) else c

/-- First character of a token: the regex class `[a-z0-9+#]`. -/
def isTokStart (c : Char) : Bool :=
  (97 ≤ c.toNat && c.toNat ≤ 122) || (48 ≤ c.toNat && c.toNat ≤ 57) ||
    c == '+' || c == '#'

/-- Continuation character of a token: the regex class `[a-z0-9+#\-\/]`. -/
def isTokCont (c : Char) : Bool :=
  isTokStart c || c == '-' || c == '/'

/-- Whitespace as matched by the `\s` regex class (ASCII part). -/
def isWsChar (c : Char) : Bool :=
  c == ' ' || c == '\t' || c == '\n' || c == '\r' ||
    c.toNat == 11 || c.toNat == 12

/-- Scanner behind `tokenize`: collects maximal runs that start with a
`isTokStart` character and continue with `isTokCont` characters, as the
global regex match `/[a-z0-9+#][a-z0-9+#\-\/]*/g` does.  `acc` is the
current token, reversed. -/
def tokenizeAux : List Char → List Char → List (List Char)
  | [], acc => if acc.isEmpty then [] else [acc.reverse]
  | c :: cs, acc =>
    if acc.isEmpty then
      if isTokStart c then tokenizeAux cs [c] else tokenizeAux cs []
    else
      if isTokCont c then tokenizeAux cs (c :: acc)
      else acc.reverse :: tokenizeAux cs []

/-- `tokenize` of the source: lower-case, then match token runs. -/
def tokenize (s : String) : List String :=
  (tokenizeAux (s.data.map lowerChar) []).map String.mk

/-- Split on a single space character, keeping empty pieces, like the
JavaScript `split(' ')`.  `acc` is the current piece, reversed. -/
def splitSpAux : List Char → List Char → List (List Char)
  | [], acc => [acc.reverse]
  | c :: cs, acc =>
    if c == ' ' then acc.reverse :: splitSpAux cs []
    else splitSpAux cs (c :: acc)

def splitSp (cs : List Char) : List (List Char) :=
  splitSpAux cs []

/-- `s.split(' ').length` of the source (empty pieces included). -/
def tokenLength (s : String) : Nat :=
  (splitSp s.data).length

/-- `s.split(' ').filter(Boolean)` of the source. -/
def spaceTokens (s : String) : List String :=
  ((splitSp s.data).filter (fun p => !p.isEmpty)).map String.mk

/-- `trim()`: strip whitespace from both ends. -/
def trimChars (cs : List Char) : List Char :=
  ((cs.dropWhile isWsChar).reverse.dropWhile isWsChar).reverse

/-- A character kept verbatim by `normalizeTerm`'s first replacement
(`[^a-z0-9+#\/\s-]+` → space): exactly the token-continuation class,
with whitespace handled by the subsequent `\s+` → space collapse. -/
def normKeepChar (c : Char) : Char :=
  if isTokCont c then c else ' '

/-- Join character runs with single spaces (the shape `collapse + trim`
leaves behind, and the JavaScript `join(' ')` on token lists). -/
def joinSpChars : List (List Char) → List Char
  | [] => []
  | [x] => x
  | x :: y :: rest => x ++ ' ' :: joinSpChars (y :: rest)

/-- `normalizeTerm`: lower-case, collapse every run of characters outside
`[a-z0-9+#\/\s-]` and every whitespace run to a single space, and trim.
The net effect is: map non-token characters to spaces, then join the
maximal non-space runs with single spaces. -/
def normalizeTerm (s : String) : String :=
  String.mk (joinSpChars
    ((splitSp ((s.data.map lowerChar).map normKeepChar)).filter
      (fun p => !p.isEmpty)))

/-! ### Insertion-ordered maps and sets (JavaScript `Map` / `Set`) -/

/-- `Map.get` on an association list. -/
def mapGet {β : Type} (m : List (String × β)) (k : String) : Option β :=
  (m.find? (fun p => p.1 == k)).map (·.2)

/-- `Map.set`: replace in place when the key exists, append otherwise. -/
def mapSet {β : Type} (m : List (String × β)) (k : String) (v : β) :
    List (String × β) :=
  match m with
  | [] => [(k, v)]
  | (k', v') :: rest =>
    if k' == k then (k, v) :: rest else (k', v') :: mapSet rest k v

/-- `Set.add`: append if not already present. -/
def setAdd (l : List String) (x : String) : List String :=
  if l.contains x then l else l ++ [x]

/-- `new Set(list)`: deduplicate keeping first occurrences. -/
def setFromList (l : List String) : List String :=
  l.foldl setAdd []

/-- Add one to the multiset count of `k` (`surfaces.set(term, get+1)`). -/
def bumpCount (m : List (String × Nat)) (k : String) : List (String × Nat) :=
  mapSet m k ((mapGet m k).getD 0 + 1)

/-- Add a fragment id to the id set. -/
def setAddNat (l : List Nat) (x : Nat) : List Nat :=
  if l.contains x then l else l ++ [x]

/-! ### Vocabulary constants -/

def STOP_WORDS : List String :=
  ["and", "the", "for", "with", "that", "have", "this", "from", "your",
   "will", "are", "you", "our", "per", "who", "any", "all", "but", "its",
   "was", "were", "has", "had", "can", "may", "must", "into", "able",
   "make", "made", "than", "over", "each", "via", "very", "much", "also",
   "ever", "every", "then", "once", "keep", "kept", "been", "being",
   "through", "within", "between", "among", "upon", "onto"]

def CONNECTOR_WORDS : List String :=
  ["and", "or", "to", "of", "in", "on", "for", "with"]

def GENERIC_TERMS : List String :=
  ["job", "jobs", "description", "descriptions", "sample", "company",
   "companies", "organization", "organizations", "department",
   "departments", "team", "teams", "employee", "employees", "employment",
   "human", "resource", "resources", "information", "detail", "details",
   "participation", "participate", "candidate", "candidates", "applicant",
   "applicants", "intern", "interns", "internship", "role", "roles",
   "position", "positions", "title", "titles", "sample job",
   "job description", "job title", "reports", "report", "gain"]

def SYNONYM_GROUPS : List (List String) :=
  [["project management", "program management", "project manager", "pm"],
   ["stakeholder management", "stakeholder engagement"],
   ["change management", "organizational change"],
   ["people management", "team leadership", "direct reports"],
   ["react", "react.js", "reactjs", "react native"],
   ["node", "node.js", "nodejs"],
   ["customer success", "client success", "account management"],
   ["business development", "sales development", "bd"],
   ["data analysis", "data analytics", "data analyst"],
   ["machine learning", "ml", "ml ops", "mlops"],
   ["artificial intelligence", "ai"],
   ["product management", "product manager", "pm (product)"],
   ["user experience", "ux"],
   ["user interface", "ui"],
   ["quality assurance", "qa", "software testing"],
   ["search engine optimization", "seo"],
   ["pay per click", "ppc"],
   ["human resources", "hr"],
   ["talent acquisition", "technical recruiting", "recruitment"]]

structure SynonymInfo where
  canonical : String
  variants : List String
deriving DecidableEq, Repr

/-- `buildSynonymMap`: every normalized group member maps to the group's
first normalized member together with the deduplicated variant list. -/
def buildSynonymMap : List (String × SynonymInfo) :=
  SYNONYM_GROUPS.foldl (fun lookup group =>
    match (group.map normalizeTerm).filter (fun t => t ≠ "") with
    | [] => lookup
    | canonical :: rest =>
      let uniqueVariants := setFromList (canonical :: rest)
      let info : SynonymInfo := ⟨canonical, uniqueVariants⟩
      uniqueVariants.foldl (fun lk variant => mapSet lk variant info) lookup)
    []

def SYNONYM_LOOKUP : List (String × SynonymInfo) := buildSynonymMap

/-! ### Data model -/

inductive RequirementTier
  | core
  | responsibility
  | preferred
  | general
deriving DecidableEq, Repr

inductive KeywordSource
  | term
  | phrase
deriving DecidableEq, Repr

/-- `SECTION_WEIGHTS` of the source. -/
def SECTION_WEIGHTS : RequirementTier → ℚ
  | .core => 1.2
  | .responsibility => 1
  | .preferred => 0.8
  | .general => 0.7

structure SectionFragment where
  id : Nat
  content : String
  sectionT : RequirementTier
deriving DecidableEq, Repr

structure KeywordStats where
  canonical : String
  occurrences : Nat
  weightedOccurrences : ℚ
  wCore : ℚ
  wResponsibility : ℚ
  wPreferred : ℚ
  wGeneral : ℚ
  source : KeywordSource
  variants : List String
  surfaces : List (String × Nat)
  fragmentIds : List Nat
deriving DecidableEq, Repr

structure KeywordInsight where
  canonical : String
  label : String
  occurrences : Nat
  importance : ℚ
  sectionT : RequirementTier
  source : KeywordSource
  variants : List String
  coverage : ℚ
deriving DecidableEq, Repr

structure KeywordMatch where
  canonical : String
  label : String
  jdOccurrences : Nat
  resumeHits : Nat
  importance : ℚ
  sectionT : RequirementTier
  source : KeywordSource
deriving DecidableEq, Repr

inductive SuggestionType
  | add
  | expand
deriving DecidableEq, Repr

structure SuggestionInsight where
  canonical : String
  label : String
  priority : RequirementTier
  weight : ℤ
  type : SuggestionType
  action : String
  detail : String
deriving DecidableEq, Repr

structure ResumeAnalysis where
  score : ℤ
  matchedKeywords : List KeywordMatch
  missingKeywords : List KeywordMatch
  summary : String
  suggestions : List SuggestionInsight
deriving DecidableEq, Repr

/-! ### Section detection -/

/-- If `needle` is a prefix of `hay`, return the rest of `hay`. -/
def dropPrefixQ : List Char → List Char → Option (List Char)
  | [], hay => some hay
  | _ :: _, [] => none
  | n :: ns, h :: hs => if n == h then dropPrefixQ ns hs else none

/-- Substring test (regex `test` without anchors or boundaries). -/
def listInfixOf (needle : List Char) : List Char → Bool
  | [] => (dropPrefixQ needle []).isSome
  | c :: rest =>
    (dropPrefixQ needle (c :: rest)).isSome || listInfixOf needle rest

/-- The separators a `[-\s]?` group may consume (`-` or an ASCII `\s`). -/
def optSeps : List (List Char) :=
  [[], ['-'], [' '], ['\t'], ['\n'], ['\r'], [Char.ofNat 11], [Char.ofNat 12]]

/-- `must[-\s]?have` tested anywhere in the (lower-cased) line. -/
def hasMustHave (l : List Char) : Bool :=
  optSeps.any (fun m => listInfixOf ("must".data ++ m ++ "have".data) l)

/-- `day[-\s]?to[-\s]?day` tested anywhere in the line. -/
def hasDayToDay (l : List Char) : Bool :=
  optSeps.any (fun a => optSeps.any (fun b =>
    listInfixOf ("day".data ++ a ++ "to".data ++ b ++ "day".data) l))

/-- `detectHeadingSection`: lines longer than 80 characters never match;
otherwise the heading regexes are tried in order (core, responsibility,
preferred). -/
def detectHeadingSection (line : String) : Option RequirementTier :=
  if line.length > 80 then none
  else
    let l := line.data.map lowerChar
    if hasMustHave l || listInfixOf "requirement".data l ||
        listInfixOf "qualification".data l || listInfixOf "skills".data l then
      some .core
    else if listInfixOf "responsibilit".data l ||
        listInfixOf "what you will do".data l || hasDayToDay l then
      some .responsibility
    else if listInfixOf "preferred".data l ||
        listInfixOf "nice to have".data l || listInfixOf "bonus".data l ||
        listInfixOf "good to have".data l then
      some .preferred
    else none

/-- Word character for `\b` boundaries: `[a-z0-9_]` after lower-casing. -/
def isWordChar (c : Char) : Bool :=
  (97 ≤ c.toNat && c.toNat ≤ 122) || (48 ≤ c.toNat && c.toNat ≤ 57) ||
    c == '_'

/-- `needle` matches at the head of `hay` with a word boundary after it. -/
def boundaryMatchAt (needle hay : List Char) : Bool :=
  match dropPrefixQ needle hay with
  | some [] => true
  | some (c :: _) => !isWordChar c
  | none => false

/-- Scan `hay` for a `\b needle \b` match; `prev` records whether the
previous character was a word character. -/
def boundedInfixGo (needle : List Char) : List Char → Bool → Bool
  | [], prev => !prev && boundaryMatchAt needle []
  | c :: rest, prev =>
    (!prev && boundaryMatchAt needle (c :: rest)) ||
      boundedInfixGo needle rest (isWordChar c)

def boundedInfix (needle hay : List Char) : Bool :=
  boundedInfixGo needle hay false

/-- `detectInlinePriority`: word-bounded inline priority markers. -/
def detectInlinePriority (line : String) : Option RequirementTier :=
  let l := line.data.map lowerChar
  if boundedInfix "must".data l || boundedInfix "required".data l ||
      boundedInfix "required experience".data l then
    some .core
  else if boundedInfix "preferred".data l ||
      boundedInfix "nice to have".data l || boundedInfix "bonus".data l then
    some .preferred
  else none

/-- Split on `\r?\n` like the JavaScript `split(/\r?\n/)` (a lone `\r` is
not a separator). -/
def splitLinesAux : List Char → List Char → List (List Char)
  | [], acc => [acc.reverse]
  | '\n' :: rest, acc => acc.reverse :: splitLinesAux rest []
  | '\r' :: '\n' :: rest, acc => acc.reverse :: splitLinesAux rest []
  | c :: rest, acc => splitLinesAux rest (c :: acc)

def splitLines (cs : List Char) : List (List Char) :=
  splitLinesAux cs []

/-- The trimmed, non-empty lines of the input text. -/
def nonEmptyLines (text : String) : List String :=
  (((splitLines text.data).map trimChars).filter
    (fun l => !l.isEmpty)).map String.mk

/-- The fragment loop of `splitIntoFragments`: headings update the active
tier and emit nothing; other lines become fragments whose tier is the
inline marker's tier if present, else the active tier. -/
def fragLoop : List String → RequirementTier → Nat → List SectionFragment
  | [], _, _ => []
  | line :: rest, active, counter =>
    match detectHeadingSection line with
    | some sec => fragLoop rest sec counter
    | none =>
      ⟨counter, line, (detectInlinePriority line).getD active⟩ ::
        fragLoop rest active (counter + 1)

def splitIntoFragments (text : String) : List SectionFragment :=
  fragLoop (nonEmptyLines text) .general 0

/-! ### Term and phrase collection -/

def isFillerWord (t : String) : Bool :=
  if (mapGet SYNONYM_LOOKUP t).isSome then false
  else STOP_WORDS.contains t || GENERIC_TERMS.contains t ||
    CONNECTOR_WORDS.contains t

def shouldKeepToken (t : String) : Bool :=
  if t.length < 3 then false
  else if isFillerWord t then false
  else true

def isGenericTerm (t : String) : Bool :=
  let tokens := spaceTokens t
  if tokens.isEmpty then true
  else
    let joined := String.intercalate " " tokens
    if (mapGet SYNONYM_LOOKUP joined).isSome then false
    else if GENERIC_TERMS.contains joined then true
    else
      let fillerCount := (tokens.filter isFillerWord).length
      if fillerCount == tokens.length then true
      else if tokens.length > 1 &&
          decide ((0.6 : ℚ) ≤ (fillerCount : ℚ) / (tokens.length : ℚ)) then
        true
      else false

/-- `tokens.join(' ')`. -/
def joinSp (l : List String) : String :=
  String.mk (joinSpChars (l.map String.data))

/-- `buildPhrase(tokens, start, length)`: the candidate-phrase filter of
the source.  `slice` is `tokens.slice(start, start + length)`. -/
def buildPhrase (tokens : List String) (start length : Nat) : Option String :=
  let slice := (tokens.drop start).take length
  if slice.length < length then none
  else
    match slice.head?, slice.getLast? with
    | some first, some last =>
      if isFillerWord first || isFillerWord last then none
      else
        let meaningfulTokens := slice.filter (fun t => !isFillerWord t)
        let requiredMeaningful := if length == 2 then 1 else min 2 length
        if meaningfulTokens.isEmpty ||
            meaningfulTokens.length < requiredMeaningful then none
        else if slice.all (fun t =>
            STOP_WORDS.contains t && !CONNECTOR_WORDS.contains t) then none
        else some (String.mk (trimChars (joinSp slice).data))
    | _, _ => none

/-! ### Occurrence recording -/

def KeywordStats.sectionWeight (st : KeywordStats) : RequirementTier → ℚ
  | .core => st.wCore
  | .responsibility => st.wResponsibility
  | .preferred => st.wPreferred
  | .general => st.wGeneral

def KeywordStats.addSectionWeight (st : KeywordStats)
    (tier : RequirementTier) (w : ℚ) : KeywordStats :=
  match tier with
  | .core => { st with wCore := st.wCore + w }
  | .responsibility => { st with wResponsibility := st.wResponsibility + w }
  | .preferred => { st with wPreferred := st.wPreferred + w }
  | .general => { st with wGeneral := st.wGeneral + w }

/-- `recordTerm`: normalize, reject short/generic terms, canonicalize via
the synonym table, and accumulate into the insertion-ordered stats map. -/
def recordTerm (term : String) (source : KeywordSource)
    (sectionT : RequirementTier) (weight : ℚ) (fragmentId : Nat)
    (statsMap : List (String × KeywordStats)) :
    List (String × KeywordStats) :=
  let normalized := normalizeTerm term
  if normalized.isEmpty || normalized.length < 3 then statsMap
  else if isGenericTerm normalized then statsMap
  else
    let synonymInfo := mapGet SYNONYM_LOOKUP normalized
    let canonical := match synonymInfo with
      | some info => info.canonical
      | none => normalized
    let baseVariants := match synonymInfo with
      | some info => info.variants
      | none => [canonical]
    let variants := setAdd (setFromList baseVariants) normalized
    let stats0 : KeywordStats :=
      (mapGet statsMap canonical).getD
        ⟨canonical, 0, 0, 0, 0, 0, 0, source, [], [], []⟩
    let stats1 := stats0.addSectionWeight sectionT weight
    let stats2 : KeywordStats :=
      { stats1 with
        occurrences := stats1.occurrences + 1
        weightedOccurrences := stats1.weightedOccurrences + weight
        source :=
          if stats1.source = .phrase ∨ source = .phrase then .phrase
          else .term
        variants := variants.foldl setAdd stats1.variants
        surfaces := bumpCount stats1.surfaces term
        fragmentIds := setAddNat stats1.fragmentIds fragmentId }
    mapSet statsMap canonical stats2

def collectTokens (tokens : List String) (sectionT : RequirementTier)
    (fragmentId : Nat) (statsMap : List (String × KeywordStats)) :
    List (String × KeywordStats) :=
  let weight := SECTION_WEIGHTS sectionT
  tokens.foldl (fun m token =>
    if shouldKeepToken token then
      recordTerm token .term sectionT weight fragmentId m
    else m) statsMap

/-- The index loop of `collectPhrases`, as recursion over suffixes:
iteration `index` works on `tokens.drop index`. -/
def collectPhrasesGo (sectionT : RequirementTier) (weight : ℚ)
    (fragmentId : Nat) :
    List String → List (String × KeywordStats) →
      List (String × KeywordStats)
  | [], m => m
  | token :: rest, m =>
    let m1 := match buildPhrase (token :: rest) 0 2 with
      | some bigram =>
        recordTerm bigram .phrase sectionT (weight * 1.1) fragmentId m
      | none => m
    let m2 := match buildPhrase (token :: rest) 0 3 with
      | some trigram =>
        recordTerm trigram .phrase sectionT (weight * 1.15) fragmentId m1
      | none => m1
    collectPhrasesGo sectionT weight fragmentId rest m2

def collectPhrases (tokens : List String) (sectionT : RequirementTier)
    (fragmentId : Nat) (statsMap : List (String × KeywordStats)) :
    List (String × KeywordStats) :=
  collectPhrasesGo sectionT (SECTION_WEIGHTS sectionT) fragmentId tokens
    statsMap

/-- The fragment loop of `extractKeywords` accumulating the stats map. -/
def buildStatsMap (fragments : List SectionFragment) :
    List (String × KeywordStats) :=
  fragments.foldl (fun m fragment =>
    let tokens := tokenize fragment.content
    if tokens.isEmpty then m
    else
      collectPhrases tokens fragment.sectionT fragment.id
        (collectTokens tokens fragment.sectionT fragment.id m)) []

/-! ### Statistical scoring -/

/-- `getDominantSection`: first tier (in the enumeration order
core, responsibility, preferred, general) achieving the maximal weight
bucket, reproducing the stable descending sort over `Object.entries`. -/
def getDominantSection (st : KeywordStats) : RequirementTier :=
  if st.wCore ≥ st.wResponsibility ∧ st.wCore ≥ st.wPreferred ∧
      st.wCore ≥ st.wGeneral then .core
  else if st.wResponsibility ≥ st.wPreferred ∧
      st.wResponsibility ≥ st.wGeneral then .responsibility
  else if st.wPreferred ≥ st.wGeneral then .preferred
  else .general

/-- Stable insertion into a list sorted by descending count (ties keep
earlier elements first), for the surface-label selection. -/
def insertCountDesc (x : String × Nat) :
    List (String × Nat) → List (String × Nat)
  | [] => [x]
  | y :: ys => if y.2 ≥ x.2 then y :: insertCountDesc x ys else x :: y :: ys

/-- Replace every whitespace run by a single space (`replace(/\s+/g, ' ')`,
no trimming). -/
def collapseWs (cs : List Char) : List Char :=
  match cs with
  | [] => []
  | c :: rest =>
    if isWsChar c then ' ' :: collapseWs (rest.dropWhile isWsChar)
    else c :: collapseWs rest
termination_by cs.length
decreasing_by
  · simpa using Nat.lt_succ_of_le (List.dropWhile_sublist _).length_le
  · simp

/-- `selectDisplayLabel`: most frequent literal surface (stable on ties),
whitespace-collapsed. -/
def selectDisplayLabel (st : KeywordStats) : String :=
  let sorted := st.surfaces.foldl (fun acc p => insertCountDesc p acc) []
  let label := match sorted.head? with
    | some p => p.1
    | none => st.canonical
  String.mk (collapseWs label.data)

/-- `Math.round`: round half toward positive infinity (written via
`Rat.floor` so that it evaluates by kernel reduction). -/
def jsRound (q : ℚ) : ℤ :=
  (q + 1 / 2).floor

/-- `Number(x.toFixed(3))`: round to three decimal places. -/
def round3 (q : ℚ) : ℚ :=
  (jsRound (q * 1000) : ℚ) / 1000

/-- Code-unit lexicographic comparison, as the JavaScript default
`sort()` comparator on strings. -/
def listStrLt : List Char → List Char → Bool
  | [], [] => false
  | [], _ :: _ => true
  | _ :: _, [] => false
  | a :: as, b :: bs =>
    if a.toNat < b.toNat then true
    else if b.toNat < a.toNat then false
    else listStrLt as bs

def strLe (a b : String) : Bool :=
  !listStrLt b.data a.data

def insertStrAsc (x : String) : List String → List String
  | [] => [x]
  | y :: ys => if strLe y x then y :: insertStrAsc x ys else x :: y :: ys

def sortStrings (l : List String) : List String :=
  l.foldl (fun acc x => insertStrAsc x acc) []

/-- The `KeywordInsight` produced from one accumulator (the `map` body of
`extractKeywords`). -/
def toInsight (totalFragments : Nat) (maxWeighted : ℚ)
    (st : KeywordStats) : KeywordInsight :=
  let dominantSection := getDominantSection st
  let sectionBoost := SECTION_WEIGHTS dominantSection
  let phraseBoost : ℚ := if st.source = .phrase then 1.05 else 1
  let importance :=
    round3 (min (st.weightedOccurrences / maxWeighted * sectionBoost *
      phraseBoost) 1)
  { canonical := st.canonical
    label := selectDisplayLabel st
    occurrences := st.occurrences
    importance := importance
    sectionT := dominantSection
    source := st.source
    variants := sortStrings st.variants
    coverage := (st.fragmentIds.length : ℚ) / (totalFragments : ℚ) }

/-- Stable insertion sort descending by importance, reproducing the stable
JavaScript `sort((a, b) => b.importance - a.importance)`. -/
def insertImpDesc (x : KeywordInsight) :
    List KeywordInsight → List KeywordInsight
  | [] => [x]
  | y :: ys =>
    if y.importance ≥ x.importance then y :: insertImpDesc x ys
    else x :: y :: ys

def sortInsightsDesc (l : List KeywordInsight) : List KeywordInsight :=
  l.foldl (fun acc x => insertImpDesc x acc) []

/-- Stable insertion sort ascending on rationals
(`sort((a, b) => a - b)`). -/
def insertQAsc (x : ℚ) : List ℚ → List ℚ
  | [] => [x]
  | y :: ys => if y ≤ x then y :: insertQAsc x ys else x :: y :: ys

def sortQAsc (l : List ℚ) : List ℚ :=
  l.foldl (fun acc x => insertQAsc x acc) []

/-- `Math.max(...)` over a list (the list is non-empty at every use). -/
def maxQList : List ℚ → ℚ
  | [] => 0
  | q :: qs => qs.foldl max q

/-- `computePercentile` with linear interpolation over sorted values. -/
def computePercentile (values : List ℚ) (percentile : ℚ) : ℚ :=
  if values.isEmpty then 0
  else
    let index := ((values.length - 1 : ℕ) : ℚ) * percentile
    let lower := ⌊index⌋
    let upper := ⌈index⌉
    if lower = upper then values.getD lower.toNat 0
    else
      let weight := index - (lower : ℚ)
      values.getD lower.toNat 0 * (1 - weight) +
        values.getD upper.toNat 0 * weight

/-- The maximal `weightedOccurrences` across the accumulators of one
extraction call. -/
def maxWeightedOf (text : String) : ℚ :=
  maxQList ((buildStatsMap (splitIntoFragments text)).map
    (fun p => p.2.weightedOccurrences))

/-- The pre-filter candidate list of `extractKeywords`: one insight per
accumulator, sorted descending by importance (empty when no candidate
was collected, matching the early return of the source). -/
def candidateKeywords (text : String) : List KeywordInsight :=
  let fragments := splitIntoFragments text
  let totalFragments := max fragments.length 1
  let stats := (buildStatsMap fragments).map Prod.snd
  sortInsightsDesc (stats.map (toInsight totalFragments (maxWeightedOf text)))

/-- First refinement filter of `extractKeywords`: drop high-coverage,
low-importance keywords, only when more than 10 keywords exist and at
least 5 would survive. -/
def coverageRefine (keywords : List KeywordInsight) : List KeywordInsight :=
  if keywords.length > 10 then
    let coverageFiltered := keywords.filter (fun kw =>
      decide (kw.coverage ≤ 0.45) || decide ((0.4 : ℚ) ≤ kw.importance))
    if coverageFiltered.length ≥ 5 then coverageFiltered else keywords
  else keywords

/-- Second refinement filter: drop keywords under the floored
25th-percentile importance, only when more than 12 remain and at least 5
would survive. -/
def percentileRefine (refined1 : List KeywordInsight) : List KeywordInsight :=
  if refined1.length > 12 then
    let importanceValues := sortQAsc (refined1.map (·.importance))
    let percentileFloor := computePercentile importanceValues 0.25
    let importanceThreshold := max percentileFloor 0.25
    let percentileFiltered := refined1.filter (fun kw =>
      decide (importanceThreshold ≤ kw.importance))
    if percentileFiltered.length ≥ 5 then percentileFiltered else refined1
  else refined1

/-- The two refinement filters of `extractKeywords` with their guards and
the final emptiness fallback. -/
def refineKeywords (keywords : List KeywordInsight) : List KeywordInsight :=
  let refined2 := percentileRefine (coverageRefine keywords)
  if refined2.isEmpty then keywords else refined2

/-- `extractKeywords(text, limit = 28)`. -/
def extractKeywords (text : String) (limit : Nat := 28) :
    List KeywordInsight :=
  (refineKeywords (candidateKeywords text)).take limit

/-! ### Resume matching and score aggregation -/

/-- `getCanonicalKey`: normalize and resolve through the synonym table. -/
def getCanonicalKey (term : String) : String :=
  let normalized := normalizeTerm term
  if normalized.isEmpty then ""
  else
    match mapGet SYNONYM_LOOKUP normalized with
    | some info => info.canonical
    | none => normalized

/-- The index loop of `buildNgramCounts` (index `i` ↦ suffix `drop i`;
the loop stops when fewer than `size` tokens remain). -/
def buildNgramCountsGo (size : Nat) :
    List String → List (String × Nat) → List (String × Nat)
  | [], counts => counts
  | token :: rest, counts =>
    if (token :: rest).length < size then counts
    else
      let counts1 :=
        if size == 1 then
          if shouldKeepToken token then
            bumpCount counts (getCanonicalKey token)
          else counts
        else
          match buildPhrase (token :: rest) 0 size with
          | some phrase => bumpCount counts (getCanonicalKey phrase)
          | none => counts
      buildNgramCountsGo size rest counts1

def buildNgramCounts (tokens : List String) (size : Nat) :
    List (String × Nat) :=
  buildNgramCountsGo size tokens []

/-- The per-keyword match record of `analyzeResume`: the hit count comes
from the table matching the canonical key's `split(' ')` length. -/
def keywordMatchOf (unigramCounts bigramCounts trigramCounts :
    List (String × Nat)) (kw : KeywordInsight) : KeywordMatch :=
  let sourceCounts :=
    if tokenLength kw.canonical == 1 then unigramCounts
    else if tokenLength kw.canonical == 2 then bigramCounts
    else trigramCounts
  { canonical := kw.canonical
    label := kw.label
    jdOccurrences := kw.occurrences
    resumeHits := (mapGet sourceCounts kw.canonical).getD 0
    importance := kw.importance
    sectionT := kw.sectionT
    source := kw.source }

def keywordMatchesOf (resumeText : String)
    (keywords : List KeywordInsight) : List KeywordMatch :=
  let resumeTokens := tokenize resumeText
  keywords.map (keywordMatchOf (buildNgramCounts resumeTokens 1)
    (buildNgramCounts resumeTokens 2) (buildNgramCounts resumeTokens 3))

def describePriority : RequirementTier → String
  | .core => "Must-have"
  | .responsibility => "Role scope"
  | .preferred => "Preferred"
  | .general => "General"

def buildSummary (coverageScore densityScore breadthScore : ℚ) : String :=
  "Coverage " ++ toString (jsRound (coverageScore * 100)) ++ "%, depth " ++
    toString (jsRound (densityScore * 100)) ++ "%, breadth " ++
    toString (jsRound (breadthScore * 100)) ++ "% vs JD priorities."

/-- Stable insertion sort descending by importance on matches, for the
missing-keyword prioritisation in `buildSuggestions`. -/
def insertMatchImpDesc (x : KeywordMatch) :
    List KeywordMatch → List KeywordMatch
  | [] => [x]
  | y :: ys =>
    if y.importance ≥ x.importance then y :: insertMatchImpDesc x ys
    else x :: y :: ys

def sortMatchesDesc (l : List KeywordMatch) : List KeywordMatch :=
  l.foldl (fun acc x => insertMatchImpDesc x acc) []

def addSuggestion (m : KeywordMatch) : SuggestionInsight :=
  let weight := jsRound (m.importance * 100)
  { canonical := m.canonical
    label := m.label
    priority := m.sectionT
    weight := weight
    type := .add
    action := "Add proof points for " ++ m.label ++
      " covering scope, systems/tools, stakeholders, and measurable HR impact."
    detail := describePriority m.sectionT ++ " priority · JD weight " ++
      toString weight ++ "%" }

def expandSuggestion (m : KeywordMatch) : SuggestionInsight :=
  let weight := jsRound (m.importance * 100)
  { canonical := m.canonical
    label := m.label
    priority := m.sectionT
    weight := weight
    type := .expand
    action := "Deepen the story for " ++ m.label ++
      " to mirror JD emphasis—mention scope, HR tech stack, and outcomes."
    detail := describePriority m.sectionT ++ " priority · JD weight " ++
      toString weight ++ "%" }

def buildSuggestions (missingKeywords matchedKeywords : List KeywordMatch) :
    List SuggestionInsight :=
  let prioritizedMissing := (sortMatchesDesc missingKeywords).take 5
  let enrichmentTargets := (matchedKeywords.filter (fun m =>
    decide (0 < m.resumeHits) && decide (m.resumeHits < m.jdOccurrences))).take 2
  prioritizedMissing.map addSuggestion ++
    enrichmentTargets.map expandSuggestion

/-- `analyzeResume(resumeText, keywords)`. -/
def analyzeResume (resumeText : String) (keywords : List KeywordInsight) :
    ResumeAnalysis :=
  let keywordMatches := keywordMatchesOf resumeText keywords
  let matchedKeywords := keywordMatches.filter (fun m =>
    decide (0 < m.resumeHits))
  let missingKeywords := keywordMatches.filter (fun m =>
    decide (m.resumeHits = 0))
  let sumImportance := (keywords.map (·.importance)).sum
  let totalImportance := if sumImportance = 0 then 1 else sumImportance
  let coverageScore :=
    (matchedKeywords.map (·.importance)).sum / totalImportance
  let densityScore :=
    (matchedKeywords.map (fun m =>
      min ((m.resumeHits : ℚ) / (max m.jdOccurrences 1 : ℕ)) 1)).sum /
      ((max keywords.length 1 : ℕ) : ℚ)
  let breadthScore :=
    (matchedKeywords.length : ℚ) / ((max keywords.length 1 : ℕ) : ℚ)
  let finalScore :=
    jsRound ((coverageScore * 0.6 + densityScore * 0.3 + breadthScore * 0.1) *
      100)
  { score := min finalScore 100
    matchedKeywords := matchedKeywords
    missingKeywords := missingKeywords
    summary := buildSummary coverageScore densityScore breadthScore
    suggestions := buildSuggestions missingKeywords matchedKeywords }

/-! ## Supporting lemmas -/

theorem jsRound_eq (q : ℚ) : jsRound q = round q := by
  rw [jsRound, round_eq, Rat.floor_def', Rat.floor_def]

theorem jsRound_nonneg {q : ℚ} (h : 0 ≤ q) : 0 ≤ jsRound q := by
  rw [jsRound_eq, round_eq]
  exact Int.floor_nonneg.mpr (by linarith)

theorem jsRound_le_100 {q : ℚ} (h : q ≤ 100) : jsRound q ≤ 100 := by
  rw [jsRound_eq, round_eq]
  have h201 : (⌊(201 / 2 : ℚ)⌋ : ℤ) = 100 := by norm_num
  calc ⌊q + 1 / 2⌋ ≤ ⌊(201 / 2 : ℚ)⌋ := Int.floor_le_floor (by linarith)
    _ = 100 := h201

theorem jsRound_mono {a b : ℚ} (h : a ≤ b) : jsRound a ≤ jsRound b := by
  rw [jsRound_eq, jsRound_eq, round_eq, round_eq]
  exact Int.floor_le_floor (by linarith)

theorem round3_mono {a b : ℚ} (h : a ≤ b) : round3 a ≤ round3 b := by
  unfold round3
  have := jsRound_mono (by linarith : a * 1000 ≤ b * 1000)
  have hcast : ((jsRound (a * 1000) : ℚ)) ≤ (jsRound (b * 1000) : ℚ) := by
    exact_mod_cast this
  linarith

theorem round3_nonneg {q : ℚ} (h : 0 ≤ q) : 0 ≤ round3 q := by
  unfold round3
  have := jsRound_nonneg (by linarith : (0 : ℚ) ≤ q * 1000)
  have hcast : (0 : ℚ) ≤ (jsRound (q * 1000) : ℚ) := by exact_mod_cast this
  linarith

/-- `round3` is the identity on multiples of `1/1000`; in particular on
`7/10`. -/
theorem round3_seven_tenths : round3 (7 / 10) = 7 / 10 := by
  unfold round3 jsRound
  norm_num
  rw [Rat.floor_def']
  norm_num

theorem sum_map_filter_le (l : List KeywordMatch) (p : KeywordMatch → Bool)
    (f : KeywordMatch → ℚ) (h : ∀ x ∈ l, 0 ≤ f x) :
    ((l.filter p).map f).sum ≤ (l.map f).sum := by
  induction l with
  | nil => simp
  | cons x xs ih =>
    have hx : 0 ≤ f x := h x (List.mem_cons_self x xs)
    have ih' := ih (fun y hy => h y (List.mem_cons_of_mem x hy))
    by_cases hp : p x
    · simp only [List.filter_cons, hp, if_pos, List.map_cons, List.sum_cons]
      linarith
    · simp only [List.filter_cons, hp, Bool.false_eq_true, if_neg,
        not_false_iff, List.map_cons, List.sum_cons]
      linarith

/-- Projections of `analyzeResume`. -/
theorem analyzeResume_matched (t : String) (kws : List KeywordInsight) :
    (analyzeResume t kws).matchedKeywords =
      (keywordMatchesOf t kws).filter (fun m => decide (0 < m.resumeHits)) :=
  rfl

theorem analyzeResume_missing (t : String) (kws : List KeywordInsight) :
    (analyzeResume t kws).missingKeywords =
      (keywordMatchesOf t kws).filter (fun m => decide (m.resumeHits = 0)) :=
  rfl

theorem keywordMatchesOf_length (t : String) (kws : List KeywordInsight) :
    (keywordMatchesOf t kws).length = kws.length := by
  simp [keywordMatchesOf]

/-- Partition into positive and zero hit counts. -/
theorem filter_hits_partition (l : List KeywordMatch) :
    (l.filter (fun m => decide (0 < m.resumeHits))).length +
      (l.filter (fun m => decide (m.resumeHits = 0))).length = l.length := by
  induction l with
  | nil => rfl
  | cons x xs ih =>
    rcases Nat.eq_zero_or_pos x.resumeHits with h | h
    · simp only [List.filter_cons, h, List.length_cons]
      norm_num
      omega
    · have h' : x.resumeHits ≠ 0 := Nat.pos_iff_ne_zero.mp h
      simp only [List.filter_cons, h, h', List.length_cons]
      norm_num
      omega

/-! ## Claims -/

/-- **C4**: for every call `analyzeResume(resumeText, keywords)`, the
returned `matchedKeywords` and `missingKeywords` partition the input:
their lengths sum to `keywords.length`, every matched entry has
`resumeHits > 0`, and every missing entry has `resumeHits == 0`. -/
theorem analyzeResume_partition (resumeText : String)
    (keywords : List KeywordInsight) :
    (analyzeResume resumeText keywords).matchedKeywords.length +
        (analyzeResume resumeText keywords).missingKeywords.length =
      keywords.length ∧
    (∀ m ∈ (analyzeResume resumeText keywords).matchedKeywords,
      0 < m.resumeHits) ∧
    (∀ m ∈ (analyzeResume resumeText keywords).missingKeywords,
      m.resumeHits = 0) := by
  refine ⟨?_, ?_, ?_⟩
  · rw [analyzeResume_matched, analyzeResume_missing,
      filter_hits_partition, keywordMatchesOf_length]
  · intro m hm
    rw [analyzeResume_matched] at hm
    exact of_decide_eq_true (List.mem_filter.mp hm).2
  · intro m hm
    rw [analyzeResume_missing] at hm
    exact of_decide_eq_true (List.mem_filter.mp hm).2

/-- Every character of every piece of `splitLinesAux` comes from the
input or the accumulator; specialised to whitespace inputs. -/
theorem splitLinesAux_ws (cs : List Char) (acc : List Char)
    (hcs : ∀ c ∈ cs, isWsChar c = true) (hacc : ∀ c ∈ acc, isWsChar c = true) :
    ∀ piece ∈ splitLinesAux cs acc, ∀ c ∈ piece, isWsChar c = true := by
  induction cs, acc using splitLinesAux.induct with
  | case1 acc =>
    intro piece hp c hc
    simp only [splitLinesAux, List.mem_singleton] at hp
    subst hp
    exact hacc c (List.mem_reverse.mp hc)
  | case2 rest acc ih =>
    intro piece hp c hc
    simp only [splitLinesAux, List.mem_cons] at hp
    rcases hp with hp | hp
    · subst hp
      exact hacc c (List.mem_reverse.mp hc)
    · exact ih (fun d hd => hcs d (List.mem_cons_of_mem _ hd))
        (fun d hd => absurd hd (List.not_mem_nil d)) piece hp c hc
  | case3 rest acc ih =>
    intro piece hp c hc
    simp only [splitLinesAux, List.mem_cons] at hp
    rcases hp with hp | hp
    · subst hp
      exact hacc c (List.mem_reverse.mp hc)
    · exact ih
        (fun d hd => hcs d
          (List.mem_cons_of_mem _ (List.mem_cons_of_mem _ hd)))
        (fun d hd => absurd hd (List.not_mem_nil d)) piece hp c hc
  | case4 c0 rest acc h1 h2 ih =>
    intro piece hp c hc
    rw [splitLinesAux] at hp
    · refine ih (fun d hd => hcs d (List.mem_cons_of_mem _ hd)) ?_ piece hp c hc
      intro d hd
      rcases List.mem_cons.mp hd with hd | hd
      · subst hd; exact hcs d (List.mem_cons_self _ _)
      · exact hacc d hd
    · exact h1
    · exact h2

theorem trimChars_ws (l : List Char) (h : ∀ c ∈ l, isWsChar c = true) :
    trimChars l = [] := by
  unfold trimChars
  have h1 : l.dropWhile isWsChar = [] := List.dropWhile_eq_nil_iff.mpr h
  simp [h1]

theorem nonEmptyLines_ws (s : String) (h : ∀ c ∈ s.data, isWsChar c = true) :
    nonEmptyLines s = [] := by
  have hp : ∀ piece ∈ splitLines s.data, ∀ c ∈ piece, isWsChar c = true :=
    splitLinesAux_ws s.data [] h (by simp)
  unfold nonEmptyLines
  have hfil :
      (((splitLines s.data).map trimChars).filter
        (fun l => !l.isEmpty)) = [] := by
    rw [List.filter_eq_nil_iff]
    intro l hl
    obtain ⟨piece, hpiece, rfl⟩ := List.mem_map.mp hl
    rw [trimChars_ws piece (hp piece hpiece)]
    simp
  rw [hfil]
  rfl

/-- **C7**: `analyzeResume(resumeText, [])` with an empty keyword list has
no division by zero: the coverage, density and breadth components are all
`0` (visible through the summary), the score is `0`, and the matched,
missing and suggestion lists are all empty. -/
theorem analyzeResume_empty_keywords (resumeText : String) :
    (analyzeResume resumeText []).score = 0 ∧
    (analyzeResume resumeText []).matchedKeywords = [] ∧
    (analyzeResume resumeText []).missingKeywords = [] ∧
    (analyzeResume resumeText []).suggestions = [] ∧
    (analyzeResume resumeText []).summary = buildSummary 0 0 0 := by
  have hm : keywordMatchesOf resumeText [] = [] := rfl
  simp only [analyzeResume, hm, List.filter_nil, List.map_nil, List.sum_nil,
    List.length_nil]
  norm_num [jsRound_eq, buildSuggestions, sortMatchesDesc, buildSummary]

/-- **C8**: on any whitespace-only input (the empty string included) and
any limit, `extractKeywords` returns the empty list. -/
theorem extractKeywords_whitespace (s : String)
    (h : ∀ c ∈ s.data, isWsChar c = true) (limit : Nat) :
    extractKeywords s limit = [] := by
  have h0 : nonEmptyLines s = [] := nonEmptyLines_ws s h
  have h1 : splitIntoFragments s = [] := by
    rw [splitIntoFragments, h0]
    rfl
  have h2 : candidateKeywords s = [] := by
    simp only [candidateKeywords, h1]
    rfl
  rw [extractKeywords, h2]
  exact List.take_nil

/-- Witness for C8 at the concrete whitespace input `" \n\t "`. -/
theorem extractKeywords_whitespace_witness :
    (∀ c ∈ (" \n\t " : String).data, isWsChar c = true) ∧
      extractKeywords " \n\t " 5 = [] :=
  ⟨by decide, extractKeywords_whitespace " \n\t " (by decide) 5⟩

/-- The per-keyword match preserves the keyword's importance. -/
theorem keywordMatchOf_importance (u b tr : List (String × Nat))
    (kw : KeywordInsight) :
    (keywordMatchOf u b tr kw).importance = kw.importance := rfl

/-- **C2**: for every resume text and every keyword list whose importances
are non-negative, the score of `analyzeResume` satisfies
`0 ≤ score ≤ 100`. -/
theorem analyzeResume_score_bounds (resumeText : String)
    (keywords : List KeywordInsight)
    (h : ∀ kw ∈ keywords, 0 ≤ kw.importance) :
    0 ≤ (analyzeResume resumeText keywords).score ∧
      (analyzeResume resumeText keywords).score ≤ 100 := by
  have hproj : (analyzeResume resumeText keywords).score =
      (let km := keywordMatchesOf resumeText keywords
       let matched := km.filter (fun m => decide (0 < m.resumeHits))
       let sumImp := (keywords.map (·.importance)).sum
       let total : ℚ := if sumImp = 0 then 1 else sumImp
       let cov := (matched.map (·.importance)).sum / total
       let den := (matched.map (fun m =>
         min ((m.resumeHits : ℚ) / ((max m.jdOccurrences 1 : ℕ) : ℚ)) 1)).sum /
         ((max keywords.length 1 : ℕ) : ℚ)
       let br := (matched.length : ℚ) / ((max keywords.length 1 : ℕ) : ℚ)
       min (jsRound ((cov * 0.6 + den * 0.3 + br * 0.1) * 100)) 100) := rfl
  rw [hproj]
  simp only []
  set km := keywordMatchesOf resumeText keywords with hkm
  set matched := km.filter (fun m => decide (0 < m.resumeHits)) with hmatched
  -- nonnegativity of importances on the match list
  have hImpKm : ∀ m ∈ km, 0 ≤ m.importance := by
    intro m hm
    rw [hkm, keywordMatchesOf] at hm
    obtain ⟨kw, hkw, rfl⟩ := List.mem_map.mp hm
    exact h kw hkw
  have hImpMatched : ∀ m ∈ matched, 0 ≤ m.importance := fun m hm =>
    hImpKm m (List.mem_of_mem_filter hm)
  -- km importances sum to the keyword importances sum
  have hSumEq : (km.map (·.importance)).sum = (keywords.map (·.importance)).sum := by
    rw [hkm, keywordMatchesOf]
    rw [List.map_map]
    rfl
  set sumImp := (keywords.map (·.importance)).sum with hsumImp
  have hSumNonneg : 0 ≤ sumImp := by
    apply List.sum_nonneg
    intro x hx
    obtain ⟨kw, hkw, rfl⟩ := List.mem_map.mp hx
    exact h kw hkw
  set total : ℚ := if sumImp = 0 then 1 else sumImp with htotal
  have hTotalPos : 0 < total := by
    rw [htotal]
    split
    · norm_num
    · rename_i hne
      exact lt_of_le_of_ne hSumNonneg (Ne.symm hne)
  have hMatchedSumNonneg : 0 ≤ (matched.map (·.importance)).sum := by
    apply List.sum_nonneg
    intro x hx
    obtain ⟨m, hm, rfl⟩ := List.mem_map.mp hx
    exact hImpMatched m hm
  have hMatchedSumLe : (matched.map (·.importance)).sum ≤ total := by
    have hle : (matched.map (·.importance)).sum ≤ (km.map (·.importance)).sum :=
      sum_map_filter_le km _ _ hImpKm
    rw [hSumEq] at hle
    rw [htotal]
    split
    · rename_i h0; rw [h0] at hle; linarith
    · exact hle
  have hCov0 : 0 ≤ (matched.map (·.importance)).sum / total :=
    div_nonneg hMatchedSumNonneg (le_of_lt hTotalPos)
  have hCov1 : (matched.map (·.importance)).sum / total ≤ 1 :=
    (div_le_one hTotalPos).mpr hMatchedSumLe
  -- density
  set L : ℚ := ((max keywords.length 1 : ℕ) : ℚ) with hL
  have hLpos : 0 < L := by
    rw [hL]
    have : 1 ≤ max keywords.length 1 := le_max_right _ _
    exact_mod_cast Nat.lt_of_lt_of_le Nat.zero_lt_one this
  have hDenTerm : ∀ m ∈ matched,
      0 ≤ min ((m.resumeHits : ℚ) / ((max m.jdOccurrences 1 : ℕ) : ℚ)) 1 ∧
      min ((m.resumeHits : ℚ) / ((max m.jdOccurrences 1 : ℕ) : ℚ)) 1 ≤ 1 := by
    intro m _
    constructor
    · apply le_min
      · apply div_nonneg (by positivity)
        have : (0:ℕ) ≤ max m.jdOccurrences 1 := Nat.zero_le _
        positivity
      · norm_num
    · exact min_le_right _ _
  have hDenSumUb : (matched.map (fun m =>
      min ((m.resumeHits : ℚ) / ((max m.jdOccurrences 1 : ℕ) : ℚ)) 1)).sum ≤
      (matched.length : ℚ) := by
    have := List.sum_le_card_nsmul (matched.map (fun m =>
      min ((m.resumeHits : ℚ) / ((max m.jdOccurrences 1 : ℕ) : ℚ)) 1)) 1 ?_
    · simpa using this
    · intro x hx
      obtain ⟨m, hm, rfl⟩ := List.mem_map.mp hx
      exact (hDenTerm m hm).2
  have hMatchedLenLe : (matched.length : ℚ) ≤ L := by
    rw [hL]
    have h1 : matched.length ≤ km.length := List.length_filter_le _ _
    have h2 : km.length = keywords.length := keywordMatchesOf_length _ _
    have h3 : keywords.length ≤ max keywords.length 1 := le_max_left _ _
    exact_mod_cast le_trans (h1.trans (h2.le.trans h3)) (le_refl _)
  have hDenSumNonneg : 0 ≤ (matched.map (fun m =>
      min ((m.resumeHits : ℚ) / ((max m.jdOccurrences 1 : ℕ) : ℚ)) 1)).sum := by
    apply List.sum_nonneg
    intro x hx
    obtain ⟨m, hm, rfl⟩ := List.mem_map.mp hx
    exact (hDenTerm m hm).1
  have hDen0 : 0 ≤ (matched.map (fun m =>
      min ((m.resumeHits : ℚ) / ((max m.jdOccurrences 1 : ℕ) : ℚ)) 1)).sum / L :=
    div_nonneg hDenSumNonneg (le_of_lt hLpos)
  have hDen1 : (matched.map (fun m =>
      min ((m.resumeHits : ℚ) / ((max m.jdOccurrences 1 : ℕ) : ℚ)) 1)).sum / L ≤ 1 :=
    (div_le_one hLpos).mpr (hDenSumUb.trans hMatchedLenLe)
  have hBr0 : 0 ≤ (matched.length : ℚ) / L := div_nonneg (by positivity) (le_of_lt hLpos)
  have hBr1 : (matched.length : ℚ) / L ≤ 1 := (div_le_one hLpos).mpr hMatchedLenLe
  constructor
  · apply le_min
    · apply jsRound_nonneg
      nlinarith
    · norm_num
  · exact min_le_right _ _

/-- Sample keyword record used by several concrete witnesses. -/
def kwReactSample : KeywordInsight :=
  { canonical := "react", label := "react", occurrences := 1,
    importance := 0.7, sectionT := .general, source := .term,
    variants := ["react"], coverage := 1 }

/-- Witness for C2 at a concrete resume and keyword list. -/
theorem analyzeResume_score_bounds_witness :
    (∀ kw ∈ [kwReactSample], 0 ≤ kw.importance) ∧
      (0 ≤ (analyzeResume "react developer" [kwReactSample]).score ∧
        (analyzeResume "react developer" [kwReactSample]).score ≤ 100) :=
  ⟨of_decide_eq_true (by with_unfolding_all rfl),
    analyzeResume_score_bounds "react developer" [kwReactSample]
      (of_decide_eq_true (by with_unfolding_all rfl))⟩

/-- Well-formedness of the stats map: keys are distinct and every
accumulator stores its own key as `canonical`. -/
def StatsMapWF (m : List (String × KeywordStats)) : Prop :=
  (m.map Prod.fst).Nodup ∧ ∀ p ∈ m, p.2.canonical = p.1

theorem mapSet_fst_mem {β : Type} (m : List (String × β)) (k : String)
    (v : β) : ∀ x ∈ (mapSet m k v).map Prod.fst,
      x ∈ m.map Prod.fst ∨ x = k := by
  induction m with
  | nil => intro x hx; simp [mapSet] at hx; right; exact hx
  | cons p rest ih =>
    intro x hx
    obtain ⟨k', v'⟩ := p
    rw [mapSet] at hx
    by_cases hk : k' == k
    · simp only [hk, if_pos] at hx
      simp only [List.map_cons, List.mem_cons] at hx ⊢
      rcases hx with hx | hx
      · right; exact hx
      · left; right; exact hx
    · simp only [hk, if_neg, Bool.false_eq_true, not_false_iff] at hx
      simp only [List.map_cons, List.mem_cons] at hx ⊢
      rcases hx with hx | hx
      · left; left; exact hx
      · rcases ih x hx with h | h
        · left; right; exact h
        · right; exact h

theorem statsMapWF_mapSet (m : List (String × KeywordStats)) (k : String)
    (v : KeywordStats) (hm : StatsMapWF m) (hv : v.canonical = k) :
    StatsMapWF (mapSet m k v) := by
  induction m with
  | nil =>
    exact ⟨by simp [mapSet], by
      intro p hp
      simp [mapSet] at hp
      subst hp
      exact hv⟩
  | cons p rest ih =>
    obtain ⟨k', v'⟩ := p
    obtain ⟨hnd, hcan⟩ := hm
    simp only [List.map_cons, List.nodup_cons] at hnd
    have hmrest : StatsMapWF rest :=
      ⟨hnd.2, fun q hq => hcan q (List.mem_cons_of_mem _ hq)⟩
    rw [mapSet]
    by_cases hk : k' == k
    · have hk' : k' = k := by simpa using hk
      subst hk'
      simp only [hk, if_pos]
      constructor
      · simpa using hnd
      · intro q hq
        rcases List.mem_cons.mp hq with hq | hq
        · subst hq; exact hv
        · exact hcan q (List.mem_cons_of_mem _ hq)
    · simp only [hk, Bool.false_eq_true, if_neg, not_false_iff]
      obtain ⟨ihnd, ihcan⟩ := ih hmrest
      constructor
      · simp only [List.map_cons, List.nodup_cons]
        refine ⟨?_, ihnd⟩
        intro hmem
        rcases mapSet_fst_mem rest k v k' hmem with h | h
        · exact hnd.1 h
        · rw [h] at hk; simp at hk
      · intro q hq
        rcases List.mem_cons.mp hq with hq | hq
        · subst hq; exact hcan (k', v') (List.mem_cons_self _ _)
        · exact ihcan q hq

theorem mapGet_eq_some {β : Type} (m : List (String × β)) (k : String)
    (v : β) (h : mapGet m k = some v) : ∃ p ∈ m, p.1 = k ∧ p.2 = v := by
  rw [mapGet] at h
  obtain ⟨p, hfind, hv⟩ := Option.map_eq_some'.mp h
  refine ⟨p, List.mem_of_find?_eq_some hfind, ?_, hv⟩
  have := List.find?_some hfind
  simpa using this

theorem statsMapWF_recordTerm (term : String) (source : KeywordSource)
    (sectionT : RequirementTier) (weight : ℚ) (fragmentId : Nat)
    (m : List (String × KeywordStats)) (hm : StatsMapWF m) :
    StatsMapWF (recordTerm term source sectionT weight fragmentId m) := by
  rw [recordTerm]
  split
  · exact hm
  · split
    · exact hm
    · apply statsMapWF_mapSet _ _ _ hm
      set canon := (match mapGet SYNONYM_LOOKUP (normalizeTerm term) with
        | some info => info.canonical
        | none => normalizeTerm term) with hcanon
      show (KeywordStats.addSectionWeight _ _ _).canonical = _
      have hadd : ∀ (st : KeywordStats) (tier : RequirementTier) (w : ℚ),
          (st.addSectionWeight tier w).canonical = st.canonical := by
        intro st tier w
        cases tier <;> rfl
      rw [hadd]
      rcases hget : mapGet m canon with _ | st
      · simp [hget]
      · simp only [hget, Option.getD_some]
        obtain ⟨p, hp, hpk, hpv⟩ := mapGet_eq_some m canon st hget
        rw [← hpv, hm.2 p hp, hpk]

theorem statsMapWF_collectTokens (tokens : List String)
    (sectionT : RequirementTier) (fragmentId : Nat)
    (m : List (String × KeywordStats)) (hm : StatsMapWF m) :
    StatsMapWF (collectTokens tokens sectionT fragmentId m) := by
  rw [collectTokens]
  induction tokens generalizing m with
  | nil => exact hm
  | cons t ts ih =>
    rw [List.foldl_cons]
    apply ih
    split
    · exact statsMapWF_recordTerm _ _ _ _ _ _ hm
    · exact hm

theorem statsMapWF_collectPhrasesGo (sectionT : RequirementTier) (w : ℚ)
    (fragmentId : Nat) (tokens : List String)
    (m : List (String × KeywordStats)) (hm : StatsMapWF m) :
    StatsMapWF (collectPhrasesGo sectionT w fragmentId tokens m) := by
  induction tokens generalizing m with
  | nil => exact hm
  | cons t ts ih =>
    rw [collectPhrasesGo]
    apply ih
    have h1 : StatsMapWF (match buildPhrase (t :: ts) 0 2 with
        | some bigram =>
          recordTerm bigram .phrase sectionT (w * 1.1) fragmentId m
        | none => m) := by
      split
      · exact statsMapWF_recordTerm _ _ _ _ _ _ hm
      · exact hm
    split
    · exact statsMapWF_recordTerm _ _ _ _ _ _ h1
    · exact h1

theorem statsMapWF_buildStatsMap (fragments : List SectionFragment) :
    StatsMapWF (buildStatsMap fragments) := by
  rw [buildStatsMap]
  have : StatsMapWF ([] : List (String × KeywordStats)) := ⟨List.nodup_nil, by simp⟩
  generalize hinit : ([] : List (String × KeywordStats)) = init at this ⊢
  clear hinit
  induction fragments generalizing init with
  | nil => exact this
  | cons f fs ih =>
    rw [List.foldl_cons]
    apply ih
    dsimp only
    split
    · exact this
    · exact statsMapWF_collectPhrasesGo _ _ _ _ _
        (statsMapWF_collectTokens _ _ _ _ this)

theorem insertImpDesc_perm (x : KeywordInsight) (l : List KeywordInsight) :
    (insertImpDesc x l).Perm (x :: l) := by
  induction l with
  | nil => rfl
  | cons y ys ih =>
    rw [insertImpDesc]
    split
    · exact ((ih.cons y).trans (List.Perm.swap x y ys)).symm.symm
    · exact List.Perm.refl _

theorem sortInsightsDesc_perm (l : List KeywordInsight) :
    (sortInsightsDesc l).Perm l := by
  rw [sortInsightsDesc]
  have main : ∀ (l acc : List KeywordInsight),
      (l.foldl (fun acc x => insertImpDesc x acc) acc).Perm (acc ++ l) := by
    intro l
    induction l with
    | nil => intro acc; simp
    | cons x xs ih =>
      intro acc
      rw [List.foldl_cons]
      refine (ih (insertImpDesc x acc)).trans ?_
      have h1 : (insertImpDesc x acc ++ xs).Perm ((x :: acc) ++ xs) :=
        (insertImpDesc_perm x acc).append_right xs
      refine h1.trans ?_
      simpa using List.perm_middle.symm
  simpa using main l []

/-- Distinct canonical keys, as a pairwise relation. -/
def DistinctCanon (a b : KeywordInsight) : Prop := a.canonical ≠ b.canonical

theorem candidateKeywords_pairwise (text : String) :
    (candidateKeywords text).Pairwise DistinctCanon := by
  rw [candidateKeywords]
  have hwf := statsMapWF_buildStatsMap (splitIntoFragments text)
  set m := buildStatsMap (splitIntoFragments text) with hm
  have hnd : ((m.map Prod.snd).map
      (fun st : KeywordStats => st.canonical)).Nodup := by
    have : (m.map Prod.snd).map (fun st : KeywordStats => st.canonical) =
        m.map Prod.fst := by
      rw [List.map_map]
      apply List.map_congr_left
      intro p hp
      exact hwf.2 p hp
    rw [this]
    exact hwf.1
  have hpair : (m.map Prod.snd).Pairwise
      (fun a b : KeywordStats => a.canonical ≠ b.canonical) := by
    rw [List.Nodup, List.pairwise_map] at hnd
    exact hnd
  have hmapped : ((m.map Prod.snd).map
      (toInsight (max (splitIntoFragments text).length 1)
        (maxWeightedOf text))).Pairwise DistinctCanon := by
    rw [List.pairwise_map]
    exact hpair.imp (fun h => h)
  exact ((sortInsightsDesc_perm _).pairwise_iff
    (fun {a b} h => Ne.symm h)).mpr hmapped

theorem coverageRefine_sublist (l : List KeywordInsight) :
    (coverageRefine l).Sublist l := by
  rw [coverageRefine]
  dsimp only
  split
  · split
    · exact List.filter_sublist l
    · exact List.Sublist.refl l
  · exact List.Sublist.refl l

theorem percentileRefine_sublist (l : List KeywordInsight) :
    (percentileRefine l).Sublist l := by
  rw [percentileRefine]
  dsimp only
  split
  · split
    · exact List.filter_sublist l
    · exact List.Sublist.refl l
  · exact List.Sublist.refl l

theorem refineKeywords_sublist (l : List KeywordInsight) :
    (refineKeywords l).Sublist l := by
  rw [refineKeywords]
  split
  · exact List.Sublist.refl l
  · exact (percentileRefine_sublist _).trans (coverageRefine_sublist _)

theorem extractKeywords_sublist_candidates (text : String) (limit : Nat) :
    (extractKeywords text limit).Sublist (candidateKeywords text) := by
  rw [extractKeywords]
  exact (List.take_sublist _ _).trans (refineKeywords_sublist _)

/-- **C10**: the list returned by `extractKeywords` has pairwise-distinct
canonical keys: all occurrences mapping to the same canonical key are
merged into a single accumulator before output. -/
theorem extractKeywords_distinct_canonicals (text : String) (limit : Nat) :
    (extractKeywords text limit).Pairwise
      (fun a b => a.canonical ≠ b.canonical) := by
  have h := candidateKeywords_pairwise text
  exact h.sublist (extractKeywords_sublist_candidates text limit)

/-- **C1**: every returned `KeywordInsight`'s importance equals
`min(1, (weightedCount / maxWeightedCount) x tierWeight[dominantTier] x
(1.05 if phrase else 1))` rounded to three decimals, with tier weights
core=1.2, responsibility=1.0, preferred=0.8, general=0.7, traced back to
the accumulator of the same canonical key. -/
theorem extractKeywords_importance_formula (text : String) (limit : Nat)
    (kw : KeywordInsight) (hkw : kw ∈ extractKeywords text limit) :
    SECTION_WEIGHTS .core = 1.2 ∧ SECTION_WEIGHTS .responsibility = 1 ∧
    SECTION_WEIGHTS .preferred = 0.8 ∧ SECTION_WEIGHTS .general = 0.7 ∧
    ∃ st ∈ (buildStatsMap (splitIntoFragments text)).map Prod.snd,
      st.canonical = kw.canonical ∧
      kw.sectionT = getDominantSection st ∧
      kw.source = st.source ∧
      kw.importance = round3 (min (st.weightedOccurrences /
        maxWeightedOf text * SECTION_WEIGHTS (getDominantSection st) *
        (if st.source = .phrase then 1.05 else 1)) 1) := by
  have h1 : kw ∈ candidateKeywords text :=
    (extractKeywords_sublist_candidates text limit).subset hkw
  rw [candidateKeywords] at h1
  have h2 := (sortInsightsDesc_perm _).mem_iff.mp h1
  obtain ⟨st, hst, heq⟩ := List.mem_map.mp h2
  subst heq
  exact ⟨rfl, rfl, rfl, rfl, st, hst, rfl, rfl, rfl, rfl⟩

/-- The insight `extractKeywords "react"` produces. -/
def kwReactExtracted : KeywordInsight :=
  { canonical := "react", label := "react", occurrences := 1,
    importance := 7 / 10, sectionT := .general, source := .term,
    variants := ["react", "react js", "react native", "reactjs"],
    coverage := 1 }

/-- Witness for C1 at the concrete JD text `"react"`. -/
theorem extractKeywords_importance_formula_witness :
    kwReactExtracted ∈ extractKeywords "react" 28 ∧
    (SECTION_WEIGHTS .core = 1.2 ∧ SECTION_WEIGHTS .responsibility = 1 ∧
     SECTION_WEIGHTS .preferred = 0.8 ∧ SECTION_WEIGHTS .general = 0.7 ∧
     ∃ st ∈ (buildStatsMap (splitIntoFragments "react")).map Prod.snd,
       st.canonical = kwReactExtracted.canonical ∧
       kwReactExtracted.sectionT = getDominantSection st ∧
       kwReactExtracted.source = st.source ∧
       kwReactExtracted.importance = round3 (min (st.weightedOccurrences /
         maxWeightedOf "react" * SECTION_WEIGHTS (getDominantSection st) *
         (if st.source = .phrase then 1.05 else 1)) 1)) :=
  ⟨of_decide_eq_true (by with_unfolding_all rfl),
    extractKeywords_importance_formula "react" 28 kwReactExtracted
      (of_decide_eq_true (by with_unfolding_all rfl))⟩

/-! ### Character classes, tokens and phrase shapes -/

theorem tokCont_codes {c : Char} (h : isTokCont c = true) :
    (97 ≤ c.toNat ∧ c.toNat ≤ 122) ∨ (48 ≤ c.toNat ∧ c.toNat ≤ 57) ∨
      c.toNat = 43 ∨ c.toNat = 35 ∨ c.toNat = 45 ∨ c.toNat = 47 := by
  simp only [isTokCont, isTokStart, Bool.or_eq_true, Bool.and_eq_true,
    decide_eq_true_eq, beq_iff_eq] at h
  rcases h with ((((h | h) | h) | h) | h) | h
  · exact Or.inl h
  · exact Or.inr (Or.inl h)
  · subst h; exact Or.inr (Or.inr (Or.inl rfl))
  · subst h; exact Or.inr (Or.inr (Or.inr (Or.inl rfl)))
  · subst h; exact Or.inr (Or.inr (Or.inr (Or.inr (Or.inl rfl))))
  · subst h; exact Or.inr (Or.inr (Or.inr (Or.inr (Or.inr rfl))))

theorem ws_codes {c : Char} (h : isWsChar c = true) :
    c.toNat = 32 ∨ c.toNat = 9 ∨ c.toNat = 10 ∨ c.toNat = 13 ∨
      c.toNat = 11 ∨ c.toNat = 12 := by
  simp only [isWsChar, Bool.or_eq_true, decide_eq_true_eq, beq_iff_eq] at h
  rcases h with ((((h | h) | h) | h) | h) | h
  · subst h; exact Or.inl rfl
  · subst h; exact Or.inr (Or.inl rfl)
  · subst h; exact Or.inr (Or.inr (Or.inl rfl))
  · subst h; exact Or.inr (Or.inr (Or.inr (Or.inl rfl)))
  · exact Or.inr (Or.inr (Or.inr (Or.inr (Or.inl h))))
  · exact Or.inr (Or.inr (Or.inr (Or.inr (Or.inr h))))

theorem tokCont_not_ws {c : Char} (h : isTokCont c = true) :
    isWsChar c = false := by
  cases hx : isWsChar c
  · rfl
  · have h1 := tokCont_codes h
    have h2 := ws_codes hx
    omega

theorem tokCont_ne_space {c : Char} (h : isTokCont c = true) : c ≠ ' ' := by
  intro he
  have h1 := tokCont_codes h
  subst he
  simp at h1

theorem lowerChar_tokCont {c : Char} (h : isTokCont c = true) :
    lowerChar c = c := by
  have h1 := tokCont_codes h
  rw [lowerChar, if_neg]
  omega

theorem normKeepChar_tokCont {c : Char} (h : isTokCont c = true) :
    normKeepChar c = c := by
  rw [normKeepChar, if_pos h]

/-! `splitSp` facts. -/

theorem splitSpAux_append_nospace (xs : List Char) (ys acc : List Char)
    (h : ∀ c ∈ xs, c ≠ ' ') :
    splitSpAux (xs ++ ys) acc = splitSpAux ys (xs.reverse ++ acc) := by
  induction xs generalizing acc with
  | nil => simp
  | cons x xs' ih =>
    rw [List.cons_append, splitSpAux, if_neg]
    · rw [ih (x :: acc) (fun c hc => h c (List.mem_cons_of_mem _ hc))]
      simp
    · simp only [beq_iff_eq]
      exact h x (List.mem_cons_self _ _)

theorem splitSp_nospace (xs : List Char) (h : ∀ c ∈ xs, c ≠ ' ') :
    splitSp xs = [xs] := by
  have h0 : splitSp xs = splitSpAux (xs ++ []) [] := by rw [List.append_nil]; rfl
  rw [h0, splitSpAux_append_nospace xs [] [] h]
  simp [splitSpAux]

theorem splitSp_cons_space (a rest : List Char) (h : ∀ c ∈ a, c ≠ ' ') :
    splitSp (a ++ ' ' :: rest) = a :: splitSp rest := by
  rw [splitSp, splitSpAux_append_nospace a (' ' :: rest) [] h, splitSpAux,
    if_pos (by simp)]
  simp [splitSp]

theorem splitSpAux_length (cs : List Char) (acc : List Char) :
    (splitSpAux cs acc).length = cs.count ' ' + 1 := by
  induction cs generalizing acc with
  | nil => simp [splitSpAux]
  | cons c cs' ih =>
    rw [splitSpAux]
    by_cases hc : c = ' '
    · subst hc
      rw [if_pos (by simp)]
      simp only [List.length_cons, ih, List.count_cons_self]
    · rw [if_neg (by simpa using hc), ih, List.count_cons_of_ne (Ne.symm hc)]

theorem tokenLength_eq (s : String) :
    tokenLength s = s.data.count ' ' + 1 :=
  splitSpAux_length s.data []

/-! Tokens produced by `tokenize` are non-empty and in the token class. -/

def GoodTokChars (t : List Char) : Prop :=
  t ≠ [] ∧ ∀ c ∈ t, isTokCont c = true

theorem tokenizeAux_good (cs : List Char) (acc : List Char)
    (hacc : ∀ c ∈ acc, isTokCont c = true) :
    ∀ t ∈ tokenizeAux cs acc, GoodTokChars t := by
  induction cs generalizing acc with
  | nil =>
    intro t ht
    rw [tokenizeAux] at ht
    split at ht
    · simp at ht
    · rename_i hne
      simp only [List.mem_singleton] at ht
      subst ht
      refine ⟨by simpa using hne, ?_⟩
      intro c hc
      exact hacc c (List.mem_reverse.mp hc)
  | cons c cs' ih =>
    intro t ht
    rw [tokenizeAux] at ht
    split at ht
    · rename_i hemp
      split at ht
      · rename_i hstart
        exact ih [c] (by
          intro d hd
          simp only [List.mem_singleton] at hd
          subst hd
          exact Bool.or_eq_true _ _ |>.mpr (Or.inl (Bool.or_eq_true _ _
            |>.mpr (Or.inl hstart)))) t ht
      · exact ih [] (by simp) t ht
    · rename_i hemp
      split at ht
      · rename_i hcont
        exact ih (c :: acc) (by
          intro d hd
          rcases List.mem_cons.mp hd with hd | hd
          · subst hd; exact hcont
          · exact hacc d hd) t ht
      · rcases List.mem_cons.mp ht with ht | ht
        · subst ht
          refine ⟨by simpa using hemp, ?_⟩
          intro d hd
          exact hacc d (List.mem_reverse.mp hd)
        · exact ih [] (by simp) t ht

theorem tokenize_good (s : String) :
    ∀ t ∈ tokenize s, GoodTokChars t.data := by
  intro t ht
  rw [tokenize] at ht
  obtain ⟨cs, hcs, rfl⟩ := List.mem_map.mp ht
  exact tokenizeAux_good _ [] (by simp) cs hcs

/-! Shape of space-joined good tokens. -/

theorem joinSpChars_count (l : List (List Char))
    (h : ∀ x ∈ l, ∀ c ∈ x, c ≠ ' ') :
    (joinSpChars l).count ' ' = l.length - 1 := by
  induction l with
  | nil => simp [joinSpChars]
  | cons x ys ih =>
    match ys, ih with
    | [], _ =>
      rw [joinSpChars]
      simp only [List.length_cons, List.length_nil]
      rw [List.count_eq_zero.mpr]
      intro hc
      exact h x (List.mem_cons_self _ _) ' ' hc rfl
    | y :: rest, ih =>
      rw [joinSpChars, List.count_append, List.count_cons_self,
        List.count_eq_zero.mpr, ih]
      · simp only [List.length_cons]
        omega
      · exact fun d hd => h d (List.mem_cons_of_mem _ hd)
      · intro hc
        exact h x (List.mem_cons_self _ _) ' ' hc rfl

theorem joinSpChars_chars (l : List (List Char))
    (h : ∀ x ∈ l, ∀ c ∈ x, isTokCont c = true) :
    ∀ c ∈ joinSpChars l, isTokCont c = true ∨ c = ' ' := by
  induction l with
  | nil => simp [joinSpChars]
  | cons x ys ih =>
    match ys, ih with
    | [], _ =>
      intro c hc
      rw [joinSpChars] at hc
      exact Or.inl (h x (List.mem_cons_self _ _) c hc)
    | y :: rest, ih =>
      intro c hc
      rw [joinSpChars] at hc
      rcases List.mem_append.mp hc with hc | hc
      · exact Or.inl (h x (List.mem_cons_self _ _) c hc)
      · rcases List.mem_cons.mp hc with hc | hc
        · exact Or.inr hc
        · exact ih (fun d hd => h d (List.mem_cons_of_mem _ hd)) c hc

theorem splitSp_joinSpChars (l : List (List Char))
    (h : ∀ x ∈ l, x ≠ [] ∧ ∀ c ∈ x, c ≠ ' ') (hne : l ≠ []) :
    splitSp (joinSpChars l) = l := by
  induction l with
  | nil => exact absurd rfl hne
  | cons x ys ih =>
    match ys, ih with
    | [], _ =>
      rw [joinSpChars]
      exact splitSp_nospace x (h x (List.mem_cons_self _ _)).2
    | y :: rest, ih =>
      rw [joinSpChars,
        splitSp_cons_space x _ (h x (List.mem_cons_self _ _)).2,
        ih (fun d hd => h d (List.mem_cons_of_mem _ hd)) (by simp)]

theorem map_id_of_eq {l : List Char} {f : Char → Char}
    (h : ∀ c ∈ l, f c = c) : l.map f = l := by
  induction l with
  | nil => rfl
  | cons c cs ih =>
    rw [List.map_cons, h c (List.mem_cons_self _ _),
      ih (fun d hd => h d (List.mem_cons_of_mem _ hd))]

/-- `normalizeTerm` fixes the space-join of good tokens. -/
theorem normalizeTerm_join_fixed (l : List (List Char))
    (h : ∀ x ∈ l, GoodTokChars x) (hne : l ≠ []) :
    normalizeTerm (String.mk (joinSpChars l)) = String.mk (joinSpChars l) := by
  have hns : ∀ x ∈ l, ∀ c ∈ x, c ≠ ' ' :=
    fun x hx c hc => tokCont_ne_space ((h x hx).2 c hc)
  have hchars := joinSpChars_chars l (fun x hx => (h x hx).2)
  rw [normalizeTerm]
  have hdata : (String.mk (joinSpChars l)).data = joinSpChars l := rfl
  rw [hdata]
  have hlower : (joinSpChars l).map lowerChar = joinSpChars l := by
    apply map_id_of_eq
    intro c hc
    rcases hchars c hc with hc' | hc'
    · exact lowerChar_tokCont hc'
    · subst hc'; rfl
  have hkeep : (joinSpChars l).map normKeepChar = joinSpChars l := by
    apply map_id_of_eq
    intro c hc
    rcases hchars c hc with hc' | hc'
    · exact normKeepChar_tokCont hc'
    · subst hc'; rfl
  rw [hlower, hkeep, splitSp_joinSpChars l
    (fun x hx => ⟨(h x hx).1, hns x hx⟩) hne]
  have hfil : l.filter (fun p => !p.isEmpty) = l := by
    apply List.filter_eq_self.mpr
    intro x hx
    simpa using (h x hx).1
  rw [hfil]

theorem trimChars_eq_self (l : List Char)
    (hh : ∀ c, l.head? = some c → isWsChar c = false)
    (hl : ∀ c, l.getLast? = some c → isWsChar c = false) :
    trimChars l = l := by
  cases l with
  | nil => rfl
  | cons c0 rest =>
    rw [trimChars]
    have h1 : (c0 :: rest).dropWhile isWsChar = c0 :: rest :=
      List.dropWhile_cons_of_neg (by simp [hh c0 rfl])
    rw [h1]
    have h2 : (c0 :: rest).reverse.dropWhile isWsChar = (c0 :: rest).reverse := by
      rcases hrev : (c0 :: rest).reverse with _ | ⟨d, ds⟩
      · exact absurd hrev (by simp)
      · rw [List.dropWhile_cons_of_neg]
        have hd : (c0 :: rest).getLast? = some d := by
          rw [← List.head?_reverse, hrev]
          rfl
        simp [hl d hd]
    rw [h2, List.reverse_reverse]

theorem joinSpChars_ne_nil (l : List (List Char))
    (h : ∀ x ∈ l, GoodTokChars x) (hne : l ≠ []) :
    joinSpChars l ≠ [] := by
  match l with
  | [] => exact absurd rfl hne
  | [x] =>
    rw [joinSpChars]
    exact (h x (List.mem_cons_self _ _)).1
  | x :: y :: rest =>
    rw [joinSpChars]
    simp

theorem joinSpChars_head_cont (l : List (List Char))
    (h : ∀ x ∈ l, GoodTokChars x) :
    ∀ c, (joinSpChars l).head? = some c → isTokCont c = true := by
  match l with
  | [] => intro c hc; simp [joinSpChars] at hc
  | [x] =>
    intro c hc
    rw [joinSpChars] at hc
    have hgood := h x (List.mem_cons_self _ _)
    rcases hx : x with _ | ⟨x0, xs⟩
    · rw [hx] at hc; simp at hc
    · have hm : x0 ∈ x := by rw [hx]; exact List.mem_cons_self _ _
      rw [hx] at hc
      simp only [List.head?_cons, Option.some_inj] at hc
      exact hc ▸ hgood.2 x0 hm
  | x :: y :: rest =>
    intro c hc
    rw [joinSpChars] at hc
    have hgood := h x (List.mem_cons_self _ _)
    rcases hx : x with _ | ⟨x0, xs⟩
    · exact absurd hx hgood.1
    · have hm : x0 ∈ x := by rw [hx]; exact List.mem_cons_self _ _
      rw [hx, List.cons_append] at hc
      simp only [List.head?_cons, Option.some_inj] at hc
      exact hc ▸ hgood.2 x0 hm

theorem joinSpChars_getLast_cont (l : List (List Char))
    (h : ∀ x ∈ l, GoodTokChars x) :
    ∀ c, (joinSpChars l).getLast? = some c → isTokCont c = true := by
  induction l with
  | nil => intro c hc; simp [joinSpChars] at hc
  | cons x ys ih =>
    match ys, ih with
    | [], _ =>
      intro c hc
      rw [joinSpChars] at hc
      obtain ⟨hne, hcl⟩ := List.mem_getLast?_eq_getLast hc
      exact (h x (List.mem_cons_self _ _)).2 c (hcl ▸ List.getLast_mem hne)
    | y :: rest, ih =>
      intro c hc
      rw [joinSpChars, List.getLast?_append_cons] at hc
      have hjne : joinSpChars (y :: rest) ≠ [] :=
        joinSpChars_ne_nil _ (fun d hd => h d (List.mem_cons_of_mem _ hd))
          (by simp)
      rcases hj : joinSpChars (y :: rest) with _ | ⟨j0, js⟩
      · exact absurd hj hjne
      · rw [hj, List.getLast?_cons_cons] at hc
        apply ih (fun d hd => h d (List.mem_cons_of_mem _ hd)) c
        rw [hj]
        exact hc

/-- A successful `buildPhrase` of `len` good tokens has exactly `len - 1`
spaces and is a fixed point of `normalizeTerm`. -/
theorem buildPhrase_shape (tokens : List String) (start len : Nat) (p : String)
    (hlen : 1 ≤ len)
    (hgood : ∀ t ∈ tokens, GoodTokChars t.data)
    (hp : buildPhrase tokens start len = some p) :
    p.data.count ' ' = len - 1 ∧ normalizeTerm p = p := by
  rw [buildPhrase] at hp
  set slice := (tokens.drop start).take len with hslice
  split at hp
  · exact absurd hp (by simp)
  · rename_i hguard
    have hsl : slice.length = len := by
      have h1 : slice.length ≤ len := by
        rw [hslice]
        exact List.length_take_le _ _
      omega
    have hmem : ∀ t ∈ slice, t ∈ tokens := by
      intro t ht
      exact ((List.take_sublist _ _).trans (List.drop_sublist _ _)).subset ht
    have hgoods : ∀ x ∈ slice.map String.data, GoodTokChars x := by
      intro x hx
      obtain ⟨t, ht, rfl⟩ := List.mem_map.mp hx
      exact hgood t (hmem t ht)
    have hne : slice.map String.data ≠ [] := by
      have hsne : slice ≠ [] := by
        intro hnil
        rw [hnil] at hsl
        simp at hsl
        omega
      simp [hsne]
    have hpe : String.mk (trimChars (joinSp slice).data) = p := by
      dsimp only at hp
      repeat' split at hp
      all_goals
        first
          | exact Option.some_inj.mp hp
          | exact absurd hp (by simp)
    have hjoin : (joinSp slice).data = joinSpChars (slice.map String.data) :=
      rfl
    have htrim : trimChars (joinSpChars (slice.map String.data)) =
        joinSpChars (slice.map String.data) := by
      apply trimChars_eq_self
      · intro c hc
        exact tokCont_not_ws (joinSpChars_head_cont _ hgoods c hc)
      · intro c hc
        exact tokCont_not_ws (joinSpChars_getLast_cont _ hgoods c hc)
    have hpdata : p.data = joinSpChars (slice.map String.data) := by
      rw [← hpe, hjoin, htrim]
    constructor
    · rw [hpdata, joinSpChars_count]
      · simp [hsl]
      · intro x hx c hc
        exact tokCont_ne_space ((hgoods x hx).2 c hc)
    · have hpmk : p = String.mk (joinSpChars (slice.map String.data)) := by
        cases p with
        | mk d =>
          have hd : d = joinSpChars (slice.map String.data) := by
            simpa using hpdata
          rw [hd]
      rw [hpmk]
      exact normalizeTerm_join_fixed _ hgoods hne

/-- Every canonical in the synonym table has at most two spaces (at most
three space-separated tokens). -/
theorem synonym_canonical_spaces :
    ∀ p ∈ SYNONYM_LOOKUP, p.2.canonical.data.count ' ' ≤ 2 := by decide

theorem getCanonicalKey_spaces (p : String) (hfix : normalizeTerm p = p)
    (hcount : p.data.count ' ' ≤ 2) (hne : p.data ≠ []) :
    (getCanonicalKey p).data.count ' ' ≤ 2 := by
  rw [getCanonicalKey, hfix]
  have hemp : p.isEmpty = false := by
    cases h : p.isEmpty
    · rfl
    · exfalso
      apply hne
      have hps := (String.isEmpty_iff p).mp h
      rw [hps]
  rw [hemp]
  simp only [Bool.false_eq_true, if_neg, not_false_iff]
  rcases hget : mapGet SYNONYM_LOOKUP p with _ | info
  · exact hcount
  · obtain ⟨q, hq, _, hqv⟩ := mapGet_eq_some _ _ _ hget
    exact hqv ▸ synonym_canonical_spaces q hq

theorem mapSet_mem {β : Type} (m : List (String × β)) (k : String) (v : β) :
    ∀ q ∈ mapSet m k v, q ∈ m ∨ q.1 = k := by
  induction m with
  | nil =>
    intro q hq
    simp only [mapSet, List.mem_singleton] at hq
    subst hq
    exact Or.inr rfl
  | cons p rest ih =>
    intro q hq
    obtain ⟨k', v'⟩ := p
    rw [mapSet] at hq
    by_cases hk : k' == k
    · simp only [hk, if_pos] at hq
      rcases List.mem_cons.mp hq with hq | hq
      · subst hq; exact Or.inr rfl
      · exact Or.inl (List.mem_cons_of_mem _ hq)
    · simp only [hk, Bool.false_eq_true, if_neg, not_false_iff] at hq
      rcases List.mem_cons.mp hq with hq | hq
      · subst hq; exact Or.inl (List.mem_cons_self _ _)
      · rcases ih q hq with h | h
        · exact Or.inl (List.mem_cons_of_mem _ h)
        · exact Or.inr h

/-- Keys of the trigram occurrence table have at most two spaces. -/
theorem triCounts_keys (toks : List String)
    (hgood : ∀ t ∈ toks, GoodTokChars t.data)
    (counts : List (String × Nat))
    (hc : ∀ q ∈ counts, q.1.data.count ' ' ≤ 2) :
    ∀ q ∈ buildNgramCountsGo 3 toks counts, q.1.data.count ' ' ≤ 2 := by
  induction toks generalizing counts with
  | nil => intro q hq; rw [buildNgramCountsGo] at hq; exact hc q hq
  | cons t rest ih =>
    intro q hq
    rw [buildNgramCountsGo] at hq
    split at hq
    · exact hc q hq
    · refine ih (fun d hd => hgood d (List.mem_cons_of_mem _ hd)) _ ?_ q hq
      intro r hr
      split at hr
      · rename_i h31
        simp at h31
      · split at hr
        · rename_i phrase hphrase
          obtain ⟨hcount, hfix⟩ :=
            buildPhrase_shape (t :: rest) 0 3 phrase (by norm_num) hgood
              hphrase
          rcases mapSet_mem _ _ _ r hr with h | h
          · exact hc r h
          · rw [h]
            have hnonnil : phrase.data ≠ [] := by
              intro hnil
              rw [hnil] at hcount
              simp at hcount
            exact getCanonicalKey_spaces phrase hfix (by omega) hnonnil
        · exact hc r hr

theorem mapGet_none_of_spaces (m : List (String × Nat))
    (hkeys : ∀ q ∈ m, q.1.data.count ' ' ≤ 2) (k : String)
    (hk : 3 ≤ k.data.count ' ') : mapGet m k = none := by
  rw [mapGet]
  rw [List.find?_eq_none.mpr]
  · rfl
  · intro q hq
    simp only [beq_iff_eq]
    intro he
    have := hkeys q hq
    rw [he] at this
    omega

/-- **C9**: a keyword whose canonical key has more than 3 space-separated
tokens cannot crash `analyzeResume`: it is looked up in the trigram table,
whose keys all have at most 3 tokens, so it gets `resumeHits = 0` and is
placed in `missingKeywords`. -/
theorem analyzeResume_long_keyword (resumeText : String) (keywords : List KeywordInsight)
    (kw : KeywordInsight) (hkw : kw ∈ keywords)
    (hlen : 3 < tokenLength kw.canonical) :
    (keywordMatchOf (buildNgramCounts (tokenize resumeText) 1)
        (buildNgramCounts (tokenize resumeText) 2)
        (buildNgramCounts (tokenize resumeText) 3) kw).resumeHits = 0 ∧
      keywordMatchOf (buildNgramCounts (tokenize resumeText) 1)
        (buildNgramCounts (tokenize resumeText) 2)
        (buildNgramCounts (tokenize resumeText) 3) kw ∈
        (analyzeResume resumeText keywords).missingKeywords := by
  have hcount : 3 ≤ kw.canonical.data.count ' ' := by
    rw [tokenLength_eq] at hlen
    omega
  have h1 : (tokenLength kw.canonical == 1) = false := by
    rw [tokenLength_eq]
    simp
    omega
  have h2 : (tokenLength kw.canonical == 2) = false := by
    rw [tokenLength_eq]
    simp
    omega
  have hnone : mapGet (buildNgramCounts (tokenize resumeText) 3)
      kw.canonical = none := by
    apply mapGet_none_of_spaces _ _ _ hcount
    intro q hq
    exact triCounts_keys (tokenize resumeText) (tokenize_good resumeText) []
      (by simp) q hq
  have hhits : (keywordMatchOf (buildNgramCounts (tokenize resumeText) 1)
      (buildNgramCounts (tokenize resumeText) 2)
      (buildNgramCounts (tokenize resumeText) 3) kw).resumeHits = 0 := by
    rw [keywordMatchOf]
    simp only [h1, h2, Bool.false_eq_true, if_neg, not_false_iff]
    rw [hnone]
    rfl
  refine ⟨hhits, ?_⟩
  rw [analyzeResume_missing]
  apply List.mem_filter.mpr
  constructor
  · rw [keywordMatchesOf]
    exact List.mem_map_of_mem _ hkw
  · rw [hhits]
    rfl

/-- A four-token keyword for the C9 witness. -/
def kwFourTokens : KeywordInsight :=
  { canonical := "alpha beta gamma delta", label := "alpha beta gamma delta",
    occurrences := 1, importance := 1, sectionT := .core, source := .phrase,
    variants := [], coverage := 1 }

/-- Witness for C9 at a concrete four-token keyword. -/
theorem analyzeResume_long_keyword_witness :
    (kwFourTokens ∈ [kwFourTokens] ∧
      3 < tokenLength kwFourTokens.canonical) ∧
    ((keywordMatchOf (buildNgramCounts (tokenize "alpha beta gamma delta") 1)
        (buildNgramCounts (tokenize "alpha beta gamma delta") 2)
        (buildNgramCounts (tokenize "alpha beta gamma delta") 3)
        kwFourTokens).resumeHits = 0 ∧
      keywordMatchOf (buildNgramCounts (tokenize "alpha beta gamma delta") 1)
        (buildNgramCounts (tokenize "alpha beta gamma delta") 2)
        (buildNgramCounts (tokenize "alpha beta gamma delta") 3)
        kwFourTokens ∈
        (analyzeResume "alpha beta gamma delta" [kwFourTokens]).missingKeywords) :=
  ⟨⟨of_decide_eq_true (by with_unfolding_all rfl),
      of_decide_eq_true (by with_unfolding_all rfl)⟩,
    analyzeResume_long_keyword "alpha beta gamma delta" [kwFourTokens]
      kwFourTokens (of_decide_eq_true (by with_unfolding_all rfl))
      (of_decide_eq_true (by with_unfolding_all rfl))⟩

/-! ### Tokenisation under concatenation and unigram counting -/

theorem tokenizeAux_append_space (xs ys : List Char) (acc : List Char) :
    tokenizeAux (xs ++ ' ' :: ys) acc =
      tokenizeAux xs acc ++ tokenizeAux ys [] := by
  induction xs generalizing acc with
  | nil =>
    simp only [List.nil_append, tokenizeAux]
    by_cases hacc : acc.isEmpty
    · simp [hacc, show isTokStart ' ' = false from by decide]
    · simp [hacc, show isTokCont ' ' = false from by decide]
  | cons c cs ih =>
    rw [List.cons_append]
    show tokenizeAux (c :: (cs ++ ' ' :: ys)) acc = _
    rw [tokenizeAux, tokenizeAux]
    by_cases hacc : acc.isEmpty
    · rw [if_pos hacc, if_pos hacc]
      by_cases hstart : isTokStart c
      · rw [if_pos hstart, if_pos hstart, ih]
      · rw [if_neg hstart, if_neg hstart, ih]
    · rw [if_neg hacc, if_neg hacc]
      by_cases hcont : isTokCont c
      · rw [if_pos hcont, if_pos hcont, ih]
      · rw [if_neg hcont, if_neg hcont, ih, List.cons_append]

theorem string_mk_data (s : String) : String.mk s.data = s := by
  cases s
  rfl

theorem tokenize_sandwich (pre post mid : String) (midToks : List String)
    (hmid : tokenizeAux (mid.data.map lowerChar) [] =
      midToks.map String.data) :
    tokenize (pre ++ (" " ++ mid ++ " ") ++ post) =
      tokenize pre ++ midToks ++ tokenize post := by
  rw [tokenize]
  have hdata : (pre ++ (" " ++ mid ++ " ") ++ post).data =
      pre.data ++ (' ' :: (mid.data ++ ' ' :: post.data)) := by
    simp [String.data_append]
  rw [hdata]
  rw [List.map_append, List.map_cons, List.map_append, List.map_cons]
  rw [show lowerChar ' ' = ' ' from by decide]
  rw [tokenizeAux_append_space, tokenizeAux_append_space, hmid]
  rw [List.map_append, List.map_append, List.map_map]
  have hmk : ∀ x : String, (String.mk ∘ String.data) x = id x :=
    fun x => string_mk_data x
  rw [List.map_congr_left (fun x _ => hmk x), List.map_id]
  show tokenize pre ++ (midToks ++ tokenize post) = _
  rw [List.append_assoc]

theorem mapGet_mapSet_self {β : Type} (m : List (String × β)) (k : String)
    (v : β) : mapGet (mapSet m k v) k = some v := by
  induction m with
  | nil =>
    rw [mapSet, mapGet, List.find?_cons_of_pos _ (by simp)]
    rfl
  | cons p rest ih =>
    obtain ⟨k', v'⟩ := p
    rw [mapSet]
    by_cases hk : (k' == k) = true
    · rw [if_pos hk, mapGet, List.find?_cons_of_pos _ (by simp)]
      rfl
    · rw [if_neg hk, mapGet, List.find?_cons_of_neg _ (by simpa using hk)]
      exact ih

theorem mapGet_mapSet_ne {β : Type} (m : List (String × β)) (k k' : String)
    (v : β) (hne : k' ≠ k) : mapGet (mapSet m k' v) k = mapGet m k := by
  have hne' : (k' == k) = false := by simpa using hne
  induction m with
  | nil =>
    rw [mapSet, mapGet, List.find?_cons_of_neg _ (by simp [hne']), mapGet]
  | cons p rest ih =>
    obtain ⟨k0, v0⟩ := p
    rw [mapSet]
    by_cases hk : (k0 == k') = true
    · have hk0 : k0 = k' := by simpa using hk
      subst hk0
      rw [if_pos (by simp)]
      rw [mapGet, mapGet, List.find?_cons_of_neg _ (by simp [hne']),
        List.find?_cons_of_neg _ (by simp [hne'])]
    · rw [if_neg hk]
      by_cases hk0 : (k0 == k) = true
      · rw [mapGet, mapGet, List.find?_cons_of_pos _ (by simp [hk0]),
          List.find?_cons_of_pos _ (by simp [hk0])]
      · rw [mapGet, mapGet, List.find?_cons_of_neg _ (by simp [hk0]),
          List.find?_cons_of_neg _ (by simp [hk0])]
        exact ih

/-- Counts only grow along the unigram fold. -/
theorem uniCountsGo_mono (l : List String) (m : List (String × Nat))
    (k : String) :
    (mapGet m k).getD 0 ≤ (mapGet (buildNgramCountsGo 1 l m) k).getD 0 := by
  induction l generalizing m with
  | nil => rw [buildNgramCountsGo]
  | cons t rest ih =>
    rw [buildNgramCountsGo]
    rw [if_neg (by simp)]
    refine le_trans ?_ (ih _)
    dsimp only
    rw [if_pos (by decide)]
    split
    · rw [bumpCount]
      by_cases hk : getCanonicalKey t = k
      · rw [hk, mapGet_mapSet_self]
        simp only [Option.getD_some]
        omega
      · rw [mapGet_mapSet_ne _ _ _ _ hk]
    · exact le_refl _

/-- After processing a kept token, its canonical key has a positive
count. -/
theorem uniCountsGo_pos (l : List String) (m : List (String × Nat))
    (t : String) (ht : t ∈ l) (hkeep : shouldKeepToken t = true) :
    1 ≤ (mapGet (buildNgramCountsGo 1 l m) (getCanonicalKey t)).getD 0 := by
  induction l generalizing m with
  | nil => exact absurd ht (List.not_mem_nil t)
  | cons u rest ih =>
    rw [buildNgramCountsGo, if_neg (by simp)]
    rcases List.mem_cons.mp ht with hu | hu
    · subst hu
      refine le_trans ?_ (uniCountsGo_mono rest _ _)
      dsimp only
      rw [if_pos (by decide), if_pos hkeep, bumpCount, mapGet_mapSet_self]
      simp only [Option.getD_some]
      omega
    · exact ih _ hu

/-- A resume whose token stream contains the literal token `react`
registers a hit for any keyword with canonical key `"react"`. -/
theorem react_hit_of_token (resumeText : String)
    (kws : List KeywordInsight) (kw : KeywordInsight) (hkw : kw ∈ kws)
    (hcan : kw.canonical = "react")
    (htok : "react" ∈ tokenize resumeText) :
    ∃ m ∈ (analyzeResume resumeText kws).matchedKeywords,
      m.canonical = "react" ∧ 1 ≤ m.resumeHits := by
  have huni : 1 ≤ (mapGet (buildNgramCounts (tokenize resumeText) 1)
      "react").getD 0 := by
    have h := uniCountsGo_pos (tokenize resumeText) [] "react" htok (by decide)
    rw [show getCanonicalKey "react" = "react" from by decide] at h
    exact h
  set mm := keywordMatchOf (buildNgramCounts (tokenize resumeText) 1)
    (buildNgramCounts (tokenize resumeText) 2)
    (buildNgramCounts (tokenize resumeText) 3) kw with hmm
  have hproj : mm.resumeHits = (mapGet (if tokenLength kw.canonical == 1
      then buildNgramCounts (tokenize resumeText) 1
      else if tokenLength kw.canonical == 2
      then buildNgramCounts (tokenize resumeText) 2
      else buildNgramCounts (tokenize resumeText) 3) kw.canonical).getD 0 :=
    rfl
  have hhits : 1 ≤ mm.resumeHits := by
    rw [hproj, hcan, if_pos (by decide : (tokenLength "react" == 1) = true)]
    exact huni
  have hmem : mm ∈ (analyzeResume resumeText kws).matchedKeywords := by
    rw [analyzeResume_matched]
    apply List.mem_filter.mpr
    refine ⟨?_, ?_⟩
    · rw [keywordMatchesOf, hmm]
      exact List.mem_map_of_mem _ hkw
    · simp only [decide_eq_true_eq]
      omega
  have hcanm : mm.canonical = "react" := by
    rw [hmm]
    show kw.canonical = "react"
    exact hcan
  exact ⟨mm, hmem, hcanm, hhits⟩

/-- **C5**: a resume containing "React.js" and an otherwise-identical
resume containing the literal token "react" produce the same hit outcome
(`resumeHits ≥ 1` and membership in `matchedKeywords`) against a keyword
whose canonical key is `"react"`, through the synonym table. -/
theorem analyzeResume_synonym_equivalence (pre post : String)
    (kws : List KeywordInsight) (kw : KeywordInsight) (hkw : kw ∈ kws)
    (hcan : kw.canonical = "react") :
    (∃ m ∈ (analyzeResume (pre ++ " React.js " ++ post) kws).matchedKeywords,
      m.canonical = "react" ∧ 1 ≤ m.resumeHits) ∧
    (∃ m ∈ (analyzeResume (pre ++ " react " ++ post) kws).matchedKeywords,
      m.canonical = "react" ∧ 1 ≤ m.resumeHits) := by
  constructor
  · apply react_hit_of_token _ kws kw hkw hcan
    have hA : tokenize (pre ++ " React.js " ++ post) =
        tokenize pre ++ ["react", "js"] ++ tokenize post := by
      rw [show (" React.js " : String) = " " ++ "React.js" ++ " " from by
        decide]
      exact tokenize_sandwich pre post "React.js" ["react", "js"] (by decide)
    rw [hA]
    simp
  · apply react_hit_of_token _ kws kw hkw hcan
    have hB : tokenize (pre ++ " react " ++ post) =
        tokenize pre ++ ["react"] ++ tokenize post := by
      rw [show (" react " : String) = " " ++ "react" ++ " " from by decide]
      exact tokenize_sandwich pre post "react" ["react"] (by decide)
    rw [hB]
    simp

/-- Witness for C5 at a concrete resume pair and keyword. -/
theorem analyzeResume_synonym_equivalence_witness :
    (kwReactSample ∈ [kwReactSample] ∧ kwReactSample.canonical = "react") ∧
    ((∃ m ∈ (analyzeResume ("I use" ++ " React.js " ++ "daily")
        [kwReactSample]).matchedKeywords,
      m.canonical = "react" ∧ 1 ≤ m.resumeHits) ∧
    (∃ m ∈ (analyzeResume ("I use" ++ " react " ++ "daily")
        [kwReactSample]).matchedKeywords,
      m.canonical = "react" ∧ 1 ≤ m.resumeHits)) :=
  ⟨⟨List.mem_cons_self _ _, rfl⟩,
    analyzeResume_synonym_equivalence "I use" "daily" [kwReactSample]
      kwReactSample (List.mem_cons_self _ _) rfl⟩

/-- The JD text of the C6 scenario. -/
def c6JdText : String :=
  "Requirements: Must have React experience. Responsibilities: Lead agile ceremonies. Preferred: AWS certification."

set_option maxRecDepth 8000000 in
/-- **C6 counterexample**: on the scenario text, "agile" is tagged `core`
(not `responsibility`) and "aws" is tagged `core` (not `preferred`): the
text is a single 112-character line, too long for heading detection, and
its inline "must" marker forces the whole fragment to `core`. -/
theorem extractKeywords_scenario_counterexample :
    (∃ kw ∈ extractKeywords c6JdText 28, kw.canonical = "agile") ∧
    (∀ kw ∈ extractKeywords c6JdText 28, kw.canonical = "agile" →
      kw.sectionT ≠ RequirementTier.responsibility) ∧
    (∀ kw ∈ extractKeywords c6JdText 28, kw.canonical = "aws" →
      kw.sectionT ≠ RequirementTier.preferred) :=
  of_decide_eq_true (by with_unfolding_all rfl)

set_option maxRecDepth 8000000 in
/-- **C6 amended**: on the scenario text — one line over 80 characters, so
no heading matches, and the inline word-bounded "must" marker applies —
"react", "agile" and "aws" are all tagged with tier `core`. -/
theorem extractKeywords_scenario_amended :
    (∃ kw ∈ extractKeywords c6JdText 28,
      kw.canonical = "react" ∧ kw.sectionT = RequirementTier.core) ∧
    (∃ kw ∈ extractKeywords c6JdText 28,
      kw.canonical = "agile" ∧ kw.sectionT = RequirementTier.core) ∧
    (∃ kw ∈ extractKeywords c6JdText 28,
      kw.canonical = "aws" ∧ kw.sectionT = RequirementTier.core) :=
  of_decide_eq_true (by with_unfolding_all rfl)

/-! ### Maximum attainment, sortedness and filter-survival -/

theorem foldl_max_facts (l : List ℚ) (q : ℚ) :
    (l.foldl max q = q ∨ l.foldl max q ∈ l) ∧ q ≤ l.foldl max q ∧
      ∀ x ∈ l, x ≤ l.foldl max q := by
  induction l generalizing q with
  | nil => exact ⟨Or.inl rfl, le_refl q, by simp⟩
  | cons y ys ih =>
    obtain ⟨hmem, hle, hall⟩ := ih (max q y)
    rw [List.foldl_cons]
    refine ⟨?_, ?_, ?_⟩
    · rcases hmem with h | h
      · rcases max_choice q y with hc | hc
        · left
          rw [h, hc]
        · right
          rw [h, hc]
          exact List.mem_cons_self _ _
      · exact Or.inr (List.mem_cons_of_mem _ h)
    · exact le_trans (le_max_left q y) hle
    · intro x hx
      rcases List.mem_cons.mp hx with hx | hx
      · exact le_trans (hx ▸ le_max_right q y) hle
      · exact hall x hx

theorem maxQList_mem (l : List ℚ) (hne : l ≠ []) : maxQList l ∈ l := by
  match l with
  | [] => exact absurd rfl hne
  | q :: qs =>
    rw [maxQList]
    rcases (foldl_max_facts qs q).1 with h | h
    · rw [h]
      exact List.mem_cons_self _ _
    · exact List.mem_cons_of_mem _ h

theorem maxQList_le (l : List ℚ) : ∀ x ∈ l, x ≤ maxQList l := by
  match l with
  | [] => simp
  | q :: qs =>
    intro x hx
    rw [maxQList]
    rcases List.mem_cons.mp hx with hx | hx
    · exact hx ▸ (foldl_max_facts qs q).2.1
    · exact (foldl_max_facts qs q).2.2 x hx

/-- The relation sorted by `sortInsightsDesc`. -/
theorem insertImpDesc_mem (x : KeywordInsight) (l : List KeywordInsight) :
    ∀ z ∈ insertImpDesc x l, z = x ∨ z ∈ l := by
  intro z hz
  have := (insertImpDesc_perm x l).mem_iff.mp hz
  rcases List.mem_cons.mp this with h | h
  · exact Or.inl h
  · exact Or.inr h

theorem insertImpDesc_pairwise (x : KeywordInsight)
    (l : List KeywordInsight)
    (h : l.Pairwise (fun a b => b.importance ≤ a.importance)) :
    (insertImpDesc x l).Pairwise
      (fun a b => b.importance ≤ a.importance) := by
  induction l with
  | nil => exact List.pairwise_singleton _ _
  | cons y ys ih =>
    rw [insertImpDesc]
    rcases List.pairwise_cons.mp h with ⟨hy, hys⟩
    split
    · rename_i hge
      apply List.pairwise_cons.mpr
      refine ⟨?_, ih hys⟩
      intro z hz
      rcases insertImpDesc_mem x ys z hz with hz | hz
      · exact hz ▸ hge
      · exact hy z hz
    · rename_i hlt
      push_neg at hlt
      apply List.pairwise_cons.mpr
      refine ⟨?_, h⟩
      intro z hz
      rcases List.mem_cons.mp hz with hz | hz
      · exact hz ▸ le_of_lt hlt
      · exact le_trans (hy z hz) (le_of_lt hlt)

theorem sortInsightsDesc_pairwise (l : List KeywordInsight) :
    (sortInsightsDesc l).Pairwise
      (fun a b => b.importance ≤ a.importance) := by
  rw [sortInsightsDesc]
  have main : ∀ (l acc : List KeywordInsight),
      acc.Pairwise (fun a b => b.importance ≤ a.importance) →
      (l.foldl (fun acc x => insertImpDesc x acc) acc).Pairwise
        (fun a b => b.importance ≤ a.importance) := by
    intro l
    induction l with
    | nil => intro acc hacc; exact hacc
    | cons x xs ih =>
      intro acc hacc
      rw [List.foldl_cons]
      exact ih _ (insertImpDesc_pairwise x acc hacc)
  exact main l [] List.Pairwise.nil

theorem insertQAsc_perm (x : ℚ) (l : List ℚ) :
    (insertQAsc x l).Perm (x :: l) := by
  induction l with
  | nil => rfl
  | cons y ys ih =>
    rw [insertQAsc]
    split
    · exact ((ih.cons y).trans (List.Perm.swap x y ys)).symm.symm
    · exact List.Perm.refl _

theorem sortQAsc_perm (l : List ℚ) : (sortQAsc l).Perm l := by
  rw [sortQAsc]
  have main : ∀ (l acc : List ℚ),
      (l.foldl (fun acc x => insertQAsc x acc) acc).Perm (acc ++ l) := by
    intro l
    induction l with
    | nil => intro acc; simp
    | cons x xs ih =>
      intro acc
      rw [List.foldl_cons]
      refine (ih (insertQAsc x acc)).trans ?_
      have h1 : (insertQAsc x acc ++ xs).Perm ((x :: acc) ++ xs) :=
        (insertQAsc_perm x acc).append_right xs
      refine h1.trans ?_
      simpa using List.perm_middle.symm
  simpa using main l []

theorem mapSet_mem_full {β : Type} (m : List (String × β)) (k : String)
    (v : β) : ∀ q ∈ mapSet m k v, q ∈ m ∨ q = (k, v) := by
  induction m with
  | nil =>
    intro q hq
    simp only [mapSet, List.mem_singleton] at hq
    exact Or.inr hq
  | cons p rest ih =>
    intro q hq
    obtain ⟨k', v'⟩ := p
    rw [mapSet] at hq
    by_cases hk : (k' == k) = true
    · rw [if_pos hk] at hq
      rcases List.mem_cons.mp hq with hq | hq
      · exact Or.inr hq
      · exact Or.inl (List.mem_cons_of_mem _ hq)
    · rw [if_neg hk] at hq
      rcases List.mem_cons.mp hq with hq | hq
      · exact Or.inl (hq ▸ List.mem_cons_self _ _)
      · rcases ih q hq with h | h
        · exact Or.inl (List.mem_cons_of_mem _ h)
        · exact Or.inr h

/-- Positivity of accumulated weights. -/
def StatsPos (m : List (String × KeywordStats)) : Prop :=
  ∀ p ∈ m, 0 < p.2.weightedOccurrences

theorem addSectionWeight_weighted (st : KeywordStats)
    (tier : RequirementTier) (w : ℚ) :
    (st.addSectionWeight tier w).weightedOccurrences =
      st.weightedOccurrences := by
  cases tier <;> rfl

theorem weighted_pos_of_base (m : List (String × KeywordStats))
    (hm : StatsPos m) (canon : String) (source : KeywordSource)
    (sectionT : RequirementTier) (weight : ℚ) (hw : 0 < weight) :
    0 < (KeywordStats.addSectionWeight ((mapGet m canon).getD
        ⟨canon, 0, 0, 0, 0, 0, 0, source, [], [], []⟩) sectionT
        weight).weightedOccurrences + weight := by
  rw [addSectionWeight_weighted]
  rcases hget : mapGet m canon with _ | st
  · simp only [Option.getD_none]
    linarith
  · simp only [Option.getD_some]
    obtain ⟨p, hp, _, hpv⟩ := mapGet_eq_some _ _ _ hget
    have := hm p hp
    rw [hpv] at this
    linarith

theorem statsPos_recordTerm (term : String) (source : KeywordSource)
    (sectionT : RequirementTier) (weight : ℚ) (hw : 0 < weight)
    (fragmentId : Nat) (m : List (String × KeywordStats))
    (hm : StatsPos m) :
    StatsPos (recordTerm term source sectionT weight fragmentId m) := by
  rw [recordTerm]
  split
  · exact hm
  · split
    · exact hm
    · intro q hq
      rcases mapSet_mem_full _ _ _ q hq with h | h
      · exact hm q h
      · rw [h]
        exact weighted_pos_of_base m hm _ source sectionT weight hw

theorem statsPos_collectTokens (tokens : List String)
    (sectionT : RequirementTier) (fragmentId : Nat)
    (m : List (String × KeywordStats)) (hm : StatsPos m) :
    StatsPos (collectTokens tokens sectionT fragmentId m) := by
  have hw : 0 < SECTION_WEIGHTS sectionT := by
    cases sectionT <;> norm_num [SECTION_WEIGHTS]
  rw [collectTokens]
  induction tokens generalizing m with
  | nil => exact hm
  | cons t ts ih =>
    rw [List.foldl_cons]
    apply ih
    split
    · exact statsPos_recordTerm _ _ _ _ hw _ _ hm
    · exact hm

theorem statsPos_collectPhrasesGo (sectionT : RequirementTier) (w : ℚ)
    (hw : 0 < w) (fragmentId : Nat) (tokens : List String)
    (m : List (String × KeywordStats)) (hm : StatsPos m) :
    StatsPos (collectPhrasesGo sectionT w fragmentId tokens m) := by
  induction tokens generalizing m with
  | nil => exact hm
  | cons t ts ih =>
    rw [collectPhrasesGo]
    apply ih
    have h1 : StatsPos (match buildPhrase (t :: ts) 0 2 with
        | some bigram =>
          recordTerm bigram .phrase sectionT (w * 1.1) fragmentId m
        | none => m) := by
      split
      · exact statsPos_recordTerm _ _ _ _ (by linarith) _ _ hm
      · exact hm
    split
    · exact statsPos_recordTerm _ _ _ _ (by linarith) _ _ h1
    · exact h1

theorem statsPos_buildStatsMap (fragments : List SectionFragment) :
    StatsPos (buildStatsMap fragments) := by
  rw [buildStatsMap]
  have hinit : StatsPos ([] : List (String × KeywordStats)) := by
    intro p hp
    exact absurd hp (List.not_mem_nil p)
  generalize ([] : List (String × KeywordStats)) = init at hinit ⊢
  induction fragments generalizing init with
  | nil => exact hinit
  | cons f fs ih =>
    rw [List.foldl_cons]
    apply ih
    dsimp only
    split
    · exact hinit
    · have hw : 0 < SECTION_WEIGHTS f.sectionT := by
        cases f.sectionT <;> norm_num [SECTION_WEIGHTS]
      exact statsPos_collectPhrasesGo _ _ hw _ _ _
        (statsPos_collectTokens _ _ _ _ hinit)

theorem getD_mem_of_lt (l : List ℚ) (i : Nat) (d : ℚ) (h : i < l.length) :
    l.getD i d ∈ l := by
  rw [List.getD_eq_getElem l d h]
  exact List.getElem_mem h

/-- The interpolated percentile never exceeds an upper bound of the
values. -/
theorem computePercentile_le (values : List ℚ) (p : ℚ) (B : ℚ)
    (hp0 : 0 ≤ p) (hp1 : p ≤ 1) (hB : 0 ≤ B)
    (hv : ∀ v ∈ values, v ≤ B) :
    computePercentile values p ≤ B := by
  rw [computePercentile]
  split
  · exact hB
  · rename_i hne
    have hlen : 1 ≤ values.length := by
      rcases values with _ | ⟨v, vs⟩
      · simp at hne
      · simp
    set n := values.length with hn
    set index : ℚ := ((n - 1 : ℕ) : ℚ) * p with hidx
    have hidx0 : 0 ≤ index := by
      rw [hidx]
      positivity
    have hidxle : index ≤ ((n - 1 : ℕ) : ℚ) := by
      rw [hidx]
      nlinarith [Nat.cast_nonneg (α := ℚ) (n - 1)]
    have hlow0 : 0 ≤ ⌊index⌋ := Int.floor_nonneg.mpr hidx0
    have hlowle : ⌊index⌋ ≤ ((n : ℤ) - 1) := by
      have h1 : ⌊index⌋ ≤ ⌊((n - 1 : ℕ) : ℚ)⌋ := Int.floor_le_floor hidxle
      rw [Int.floor_natCast] at h1
      omega
    have hlowmem : ⌊index⌋.toNat < n := by omega
    dsimp only
    split
    · exact hv _ (getD_mem_of_lt _ _ _ hlowmem)
    · rename_i hne2
      have hup : ⌈index⌉ ≤ ((n : ℤ) - 1) := by
        have h1 : ⌈index⌉ ≤ ⌈((n - 1 : ℕ) : ℚ)⌉ := Int.ceil_le_ceil hidxle
        rw [Int.ceil_natCast] at h1
        omega
      have hup0 : 0 ≤ ⌈index⌉ := le_trans hlow0 (Int.floor_le_ceil index)
      have hupmem : ⌈index⌉.toNat < n := by omega
      set w : ℚ := index - (⌊index⌋ : ℚ) with hw
      have hw0 : 0 ≤ w := by
        rw [hw]
        have := Int.floor_le index
        linarith
      have hw1 : w ≤ 1 := by
        rw [hw]
        have := Int.lt_floor_add_one index
        linarith
      have hv1 : values.getD ⌊index⌋.toNat 0 ≤ B :=
        hv _ (getD_mem_of_lt _ _ _ hlowmem)
      have hv2 : values.getD ⌈index⌉.toNat 0 ≤ B :=
        hv _ (getD_mem_of_lt _ _ _ hupmem)
      nlinarith

theorem coverageRefine_head (k0 : KeywordInsight) (rest : List KeywordInsight)
    (hp : (decide (k0.coverage ≤ 0.45) ||
      decide ((0.4 : ℚ) ≤ k0.importance)) = true) :
    ∃ t, coverageRefine (k0 :: rest) = k0 :: t ∧ t.Sublist rest := by
  rw [coverageRefine]
  dsimp only
  split
  · rw [List.filter_cons, if_pos hp]
    split
    · exact ⟨_, rfl, List.filter_sublist rest⟩
    · exact ⟨rest, rfl, List.Sublist.refl rest⟩
  · exact ⟨rest, rfl, List.Sublist.refl rest⟩

theorem percentileRefine_head (k0 : KeywordInsight)
    (rest : List KeywordInsight) (himp : (0.25 : ℚ) ≤ k0.importance)
    (hmax : ∀ c ∈ k0 :: rest, c.importance ≤ k0.importance) :
    ∃ t, percentileRefine (k0 :: rest) = k0 :: t ∧ t.Sublist rest := by
  rw [percentileRefine]
  dsimp only
  split
  · have hthr : (max (computePercentile
        (sortQAsc ((k0 :: rest).map (·.importance))) 0.25) 0.25) ≤
        k0.importance := by
      apply max_le
      · apply computePercentile_le _ _ _ (by norm_num) (by norm_num)
          (by linarith)
        intro v hv
        have hv' := (sortQAsc_perm _).mem_iff.mp hv
        obtain ⟨c, hc, rfl⟩ := List.mem_map.mp hv'
        exact hmax c hc
      · exact himp
    rw [List.filter_cons, if_pos (decide_eq_true hthr)]
    split
    · exact ⟨_, rfl, List.filter_sublist rest⟩
    · exact ⟨rest, rfl, List.Sublist.refl rest⟩
  · exact ⟨rest, rfl, List.Sublist.refl rest⟩

theorem refineKeywords_head (k0 : KeywordInsight)
    (rest : List KeywordInsight) (h04 : (0.4 : ℚ) ≤ k0.importance)
    (hmax : ∀ c ∈ k0 :: rest, c.importance ≤ k0.importance) :
    ∃ t, refineKeywords (k0 :: rest) = k0 :: t := by
  obtain ⟨t1, h1, hsub1⟩ := coverageRefine_head k0 rest (by
    simp only [Bool.or_eq_true, decide_eq_true_eq]
    right
    exact h04)
  have hmax1 : ∀ c ∈ k0 :: t1, c.importance ≤ k0.importance := by
    intro c hc
    rcases List.mem_cons.mp hc with hc | hc
    · exact hc ▸ le_refl _
    · exact hmax c (List.mem_cons_of_mem _ (hsub1.subset hc))
  obtain ⟨t2, h2, _⟩ := percentileRefine_head k0 t1 (by linarith) hmax1
  refine ⟨t2, ?_⟩
  rw [refineKeywords]
  rw [h1, h2]
  rw [if_neg (by simp)]

/-- **C3**: whenever extraction returns a non-empty list and the limit is
at least 1, some returned keyword is a pre-filter candidate whose
importance dominates every pre-filter candidate: the maximum survives the
coverage filter, the 25th-percentile filter and the top-limit
truncation. -/
theorem extractKeywords_max_survives (text : String) (limit : Nat) (hlimit : 1 ≤ limit)
    (hne : extractKeywords text limit ≠ []) :
    ∃ kw ∈ extractKeywords text limit, kw ∈ candidateKeywords text ∧
      ∀ c ∈ candidateKeywords text, c.importance ≤ kw.importance := by
  -- the candidate list is non-empty
  have hcne : candidateKeywords text ≠ [] := by
    intro h0
    apply hne
    rw [extractKeywords, h0]
    rw [show refineKeywords [] = [] from rfl]
    exact List.take_nil
  rcases hcands : candidateKeywords text with _ | ⟨k0, rest⟩
  · exact absurd hcands hcne
  -- the head dominates all candidates
  have hpair := sortInsightsDesc_pairwise ((buildStatsMap
    (splitIntoFragments text)).map Prod.snd |>.map
      (toInsight (max (splitIntoFragments text).length 1)
        (maxWeightedOf text)))
  have hpair' : (candidateKeywords text).Pairwise
      (fun a b => b.importance ≤ a.importance) := hpair
  rw [hcands] at hpair'
  have hmax : ∀ c ∈ k0 :: rest, c.importance ≤ k0.importance := by
    intro c hc
    rcases List.mem_cons.mp hc with hc | hc
    · exact hc ▸ le_refl _
    · exact (List.pairwise_cons.mp hpair').1 c hc
  -- the head's importance is at least 0.7
  have hstats_ne : (buildStatsMap (splitIntoFragments text)).map Prod.snd ≠
      [] := by
    intro h0
    apply hcne
    rw [candidateKeywords]
    rw [h0]
    rfl
  have hattained : ∃ st ∈ (buildStatsMap (splitIntoFragments text)).map
      Prod.snd, st.weightedOccurrences = maxWeightedOf text := by
    unfold maxWeightedOf
    have hmem := maxQList_mem ((buildStatsMap (splitIntoFragments
      text)).map (fun p => p.2.weightedOccurrences)) (by
        intro h0
        apply hstats_ne
        simpa using h0)
    have hmem2 : maxQList ((buildStatsMap (splitIntoFragments text)).map
        (fun p => p.2.weightedOccurrences)) ∈
        ((buildStatsMap (splitIntoFragments text)).map Prod.snd).map
          (fun st => st.weightedOccurrences) := by
      rw [List.map_map]
      exact hmem
    obtain ⟨st, hst, hv⟩ := List.mem_map.mp hmem2
    exact ⟨st, hst, hv⟩
  obtain ⟨st, hst, hstw⟩ := hattained
  have hpos : 0 < st.weightedOccurrences := by
    obtain ⟨pr, hpr, hpr2⟩ := List.mem_map.mp hst
    rw [← hpr2]
    exact statsPos_buildStatsMap _ pr hpr
  have hmaxpos : 0 < maxWeightedOf text := hstw ▸ hpos
  -- the insight of the maximal accumulator is a candidate
  have hins : toInsight (max (splitIntoFragments text).length 1)
      (maxWeightedOf text) st ∈ candidateKeywords text := by
    rw [candidateKeywords]
    exact (sortInsightsDesc_perm _).mem_iff.mpr (List.mem_map_of_mem _ hst)
  -- and its importance is at least 0.7
  have h07ins : (0.7 : ℚ) ≤ (toInsight
      (max (splitIntoFragments text).length 1) (maxWeightedOf text)
      st).importance := by
    show (0.7 : ℚ) ≤ round3 (min (st.weightedOccurrences /
      maxWeightedOf text * SECTION_WEIGHTS (getDominantSection st) *
      (if st.source = .phrase then 1.05 else 1)) 1)
    rw [hstw, div_self (ne_of_gt hmaxpos), one_mul]
    have hsb : (0.7 : ℚ) ≤ SECTION_WEIGHTS (getDominantSection st) ∧
        SECTION_WEIGHTS (getDominantSection st) ≤ 1.2 := by
      cases getDominantSection st <;> norm_num [SECTION_WEIGHTS]
    have hpb : (1 : ℚ) ≤ (if st.source = .phrase then (1.05 : ℚ) else 1) := by
      split <;> norm_num
    have harg : (0.7 : ℚ) ≤ min (SECTION_WEIGHTS (getDominantSection st) *
        (if st.source = .phrase then (1.05 : ℚ) else 1)) 1 := by
      apply le_min
      · nlinarith [hsb.1, hsb.2]
      · norm_num
    have h7 : ((0.7 : ℚ)) = round3 (7 / 10) := by
      rw [round3_seven_tenths]
      norm_num
    rw [h7]
    apply round3_mono
    calc (7 / 10 : ℚ) = 0.7 := by norm_num
      _ ≤ _ := harg
  have h07 : (0.7 : ℚ) ≤ k0.importance := by
    rw [hcands] at hins
    exact le_trans h07ins (hmax _ hins)
  -- the head survives both refinement filters and the truncation
  obtain ⟨t2, href⟩ := refineKeywords_head k0 rest (by linarith) hmax
  refine ⟨k0, ?_, ?_, ?_⟩
  · rw [extractKeywords, hcands, href]
    obtain ⟨l', rfl⟩ : ∃ l', limit = l' + 1 := ⟨limit - 1, by omega⟩
    rw [List.take_succ_cons]
    exact List.mem_cons_self _ _
  · exact List.mem_cons_self _ _
  · intro c hc
    exact hmax c hc

/-- Witness for C3 at the concrete JD text `"react"` and limit 1. -/
theorem extractKeywords_max_survives_witness :
    (1 ≤ 1 ∧ extractKeywords "react" 1 ≠ []) ∧
    (∃ kw ∈ extractKeywords "react" 1, kw ∈ candidateKeywords "react" ∧
      ∀ c ∈ candidateKeywords "react", c.importance ≤ kw.importance) :=
  ⟨⟨le_refl 1, of_decide_eq_true (by with_unfolding_all rfl)⟩,
    extractKeywords_max_survives "react" 1 (le_refl 1)
      (of_decide_eq_true (by with_unfolding_all rfl))⟩

end CandidateProfiling







